import Mathlib

/-!
Verification of the persistent heap allocator in
`include/persist_memory_manager.h` (namespace `pmm`).

The manager keeps all of its metadata inside the managed buffer: a
`ManagerHeader` at byte 0 followed by a doubly-linked list of blocks, each
starting with a `BlockHeader`.  The shallow embedding below represents the
installed manager's buffer abstractly:

* a block is its header's persistent fields (`offset`, `total_size`,
  `user_size`, `alignment`, `used`); the doubly-linked all-blocks list is a
  Lean `List Block` in link order, and the doubly-linked free list is a
  `List Nat` of block offsets in link order (head = `first_free_offset`);
* machine integers (`std::size_t`) are `Nat`; none of the verified claims
  depends on wrap-around, and within the invariants proved below no
  subtraction underflows;
* user pointers are absolute addresses `base + offset`, with the buffer's
  base address `base : Nat` an explicit parameter (the code never assumes a
  particular base);
* the pointer translation through `prev_base` performed by `deallocate` and
  `reallocate` after a growth maps an address in the previous buffer to the
  address with the *same offset* in the current buffer (the buffers are byte
  copies), so on offsets it is the identity and is not repeated here;
* `std::malloc` succeeding inside `expand` is an explicit oracle `growOk`;
* the singleton replacement done by `expand` (`s_instance` starts pointing
  to the new buffer while `this` still designates the old one) is captured
  by the `grew` flag returned by the allocation function.
-/

set_option linter.unusedVariables false
set_option maxRecDepth 4096

namespace PMM

/-- `kDefaultAlignment` from the source (bytes). -/
def kDefaultAlignment : Nat := 16

/-- `kMinAlignment` from the source (bytes). -/
def kMinAlignment : Nat := 8

/-- `kMaxAlignment` from the source (bytes). -/
def kMaxAlignment : Nat := 4096

/-- `kMinMemorySize` from the source (bytes). -/
def kMinMemorySize : Nat := 4096

/-- `kMinBlockSize` from the source (bytes). -/
def kMinBlockSize : Nat := 32

/-- `kMagic`: manager-header magic number ("PMM_V010"). -/
def kMagic : Nat := 0x504D4D5F56303130

/-- Growth factor numerator (`kGrowNumerator`). -/
def kGrowNumerator : Nat := 5

/-- Growth factor denominator (`kGrowDenominator`). -/
def kGrowDenominator : Nat := 4

/-- `sizeof(detail::BlockHeader)`: 6 eight-byte fields, one bool padded to
8 bytes, and the two free-list offsets: 9 * 8 = 72 bytes. -/
def blockHeaderSize : Nat := 72

/-- `sizeof(detail::ManagerHeader)`: 8 eight-byte fields, padded bool,
`prev_total_size`, `prev_base`, padded `prev_owns`: 12 * 8 = 96 bytes. -/
def managerHeaderSize : Nat := 96

/-- `detail::align_up(value, align)`.  The source computes
`(value + align - 1) & ~(align - 1)` under the assertion that `align` is a
power of two; for a power of two this mask form equals rounding up to the
next multiple, which is how it is written here. -/
def alignUp (value align : Nat) : Nat := (value + align - 1) / align * align

/-- `detail::is_valid_alignment`: a power of two in
`[kMinAlignment, kMaxAlignment]`. -/
def isValidAlignment (align : Nat) : Bool :=
  decide (kMinAlignment ≤ align) && decide (align ≤ kMaxAlignment) &&
    (align &&& (align - 1) == 0)

/-- `align_up(sizeof(ManagerHeader), kDefaultAlignment)`: offset of the
first block header, as computed by `create` (`hdr_end`). -/
def hdrEnd : Nat := alignUp managerHeaderSize kDefaultAlignment

/-- One block of the heap: the persistent fields of `detail::BlockHeader`
together with the block's offset from the buffer base.  The `prev/next`
links are represented by the position of the block in the state's `blocks`
list, the `free_prev/free_next` links by the position of the offset in the
state's `freeList`. -/
structure Block where
  offset : Nat
  total_size : Nat
  user_size : Nat
  alignment : Nat
  used : Bool
deriving DecidableEq

/-- The installed manager's buffer: `detail::ManagerHeader` plus the block
lists.  `owns_memory`, `prev_base` and `prev_owns` concern only which
buffers `destroy` passes to `std::free` and are not modelled; `prev_base`
being non-null coincides with `prev_total_size > 0` in every state the
public API produces. -/
structure MgrState where
  magic : Nat
  total_size : Nat
  used_size : Nat
  block_count : Nat
  free_count : Nat
  alloc_count : Nat
  blocks : List Block
  freeList : List Nat
  prev_total_size : Nat
deriving DecidableEq

/-- Sum of `total_size` over a block list. -/
def sumTotal (bs : List Block) : Nat := (bs.map Block.total_size).sum

/-- Sum of `user_size` over the used blocks of a list. -/
def usedSum (bs : List Block) : Nat :=
  ((bs.filter Block.used).map Block.user_size).sum

/-- Offsets of the free blocks of a list, in spatial order. -/
def freeOffsets (bs : List Block) : List Nat :=
  (bs.filter (fun b => !b.used)).map Block.offset

/-- `detail::user_ptr`: the user area starts at the first address at or
after the end of the block header that is a multiple of the block's
alignment.  `base` is the buffer's base address. -/
def userAddr (base : Nat) (b : Block) : Nat :=
  alignUp (base + b.offset + blockHeaderSize) b.alignment

/-- `detail::required_block_size(user_size, alignment)`. -/
def requiredBlockSize (user_size alignment : Nat) : Nat :=
  alignUp (max (blockHeaderSize + (alignment - 1) + user_size) kMinBlockSize)
    kMinAlignment

/-- Find the block whose header lies at offset `off`
(`detail::block_at` on a well-formed heap: an offset designates the block
headed there; a `none` result corresponds to the candidate address not
holding an intact block header). -/
def blockAt (bs : List Block) (off : Nat) : Option Block :=
  bs.find? (fun b => b.offset == off)

/-- Split the all-blocks list at the block with offset `off`, returning the
blocks before it, the block itself and the blocks after it. -/
def splitAtOff : List Block → Nat → Option (List Block × Block × List Block)
  | [], _ => none
  | b :: rest, off =>
    if b.offset = off then some ([], b, rest)
    else
      match splitAtOff rest off with
      | some (pre, x, post) => some (b :: pre, x, post)
      | none => none

/-- `detail::header_from_ptr`: scan backwards from the user pointer in
`kMinAlignment` steps over at most `kMaxAlignment / kMinAlignment`
candidates, accepting the first candidate whose header is intact
(`blockAt` succeeds), is marked used, and whose computed user address is
the given pointer.  The source `break`s once the candidate would fall
below `base + sizeof(ManagerHeader)`; that condition is monotone in the
padding, so scanning the remaining paddings and rejecting each is
equivalent. -/
def headerFromPtr (base : Nat) (bs : List Block) (ptr : Nat) : Option Block :=
  (List.range (kMaxAlignment / kMinAlignment)).findSome? fun k =>
    let padding := kMinAlignment * k
    if ptr < base + managerHeaderSize + blockHeaderSize + padding then none
    else
      match blockAt bs (ptr - blockHeaderSize - padding - base) with
      | some cand =>
        if cand.used && userAddr base cand == ptr then some cand else none
      | none => none

/-- `PersistMemoryManager::create(memory, size)`.  `memoryNull` models
`memory == nullptr`.  Writes the manager header and a single free block
covering the rest of the buffer. -/
def pmmCreate (memoryNull : Bool) (size : Nat) : Option MgrState :=
  if memoryNull || size < kMinMemorySize then none
  else if size < hdrEnd + blockHeaderSize + kMinBlockSize then none
  else
    some
      { magic := kMagic
        total_size := size
        used_size := hdrEnd + blockHeaderSize
        block_count := 1
        free_count := 1
        alloc_count := 0
        blocks := [⟨hdrEnd, size - hdrEnd, 0, kDefaultAlignment, false⟩]
        freeList := [hdrEnd]
        prev_total_size := 0 }

/-- `PersistMemoryManager::allocate_from_block(blk, user_size, alignment)`
on the decomposition `blocks = pre ++ blk :: post`.  Unlinks `blk` from the
free list, splits it when the remainder can hold a header plus a minimum
block, marks it used and updates the counters.  Returns the final form of
the chosen block together with the new state. -/
def allocFromBlock (s : MgrState) (pre : List Block) (blk : Block)
    (post : List Block) (user_size alignment : Nat) : Block × MgrState :=
  let fl1 := s.freeList.erase blk.offset
  let needed := requiredBlockSize user_size alignment
  if needed + (blockHeaderSize + kMinBlockSize) ≤ blk.total_size then
    let newBlk : Block :=
      ⟨blk.offset + needed, blk.total_size - needed, 0, kDefaultAlignment, false⟩
    let blk' : Block := ⟨blk.offset, needed, user_size, alignment, true⟩
    (blk',
      { s with
        blocks := pre ++ blk' :: newBlk :: post
        freeList := newBlk.offset :: fl1
        block_count := s.block_count + 1
        free_count := s.free_count + 1 - 1
        alloc_count := s.alloc_count + 1
        used_size := s.used_size + user_size })
  else
    let blk' : Block := ⟨blk.offset, blk.total_size, user_size, alignment, true⟩
    (blk',
      { s with
        blocks := pre ++ blk' :: post
        freeList := fl1
        free_count := s.free_count - 1
        alloc_count := s.alloc_count + 1
        used_size := s.used_size + user_size })

/-- The first-fit walk of the free list performed by `allocate`: first
offset in free-list order whose block's `total_size` is at least
`needed`. -/
def findFit (s : MgrState) (needed : Nat) : Option Nat :=
  s.freeList.find? fun off =>
    match blockAt s.blocks off with
    | some b => decide (needed ≤ b.total_size)
    | none => false

/-- `PersistMemoryManager::expand(user_size, alignment)`.  Computes the new
buffer size, asks the host allocator (`growOk` models `std::malloc`
succeeding), byte-copies the image, then either extends a trailing free
block or appends a fresh free block over the new bytes.  Returns `none`
exactly when the source returns `false` (old buffer left untouched). -/
def pmmExpand (growOk : Bool) (user_size alignment : Nat) (s : MgrState) :
    Option MgrState :=
  let oldSize := s.total_size
  let needed := requiredBlockSize user_size alignment
  let grownSize := oldSize * kGrowNumerator / kGrowDenominator
  let newSize :=
    if grownSize < oldSize + needed then
      oldSize + needed + alignUp blockHeaderSize kDefaultAlignment
    else grownSize
  if !growOk then none
  else
    let extraSize := newSize - oldSize
    match s.blocks.getLast? with
    | some lastBlk =>
      if !lastBlk.used then
        let lastBlk' : Block := { lastBlk with total_size := lastBlk.total_size + extraSize }
        some
          { s with
            total_size := newSize
            blocks := s.blocks.dropLast ++ [lastBlk']
            freeList := lastBlk.offset :: s.freeList.erase lastBlk.offset
            prev_total_size := oldSize }
      else if extraSize < blockHeaderSize + kMinBlockSize then none
      else
        some
          { s with
            total_size := newSize
            blocks := s.blocks ++ [⟨oldSize, extraSize, 0, kDefaultAlignment, false⟩]
            block_count := s.block_count + 1
            free_count := s.free_count + 1
            freeList := oldSize :: s.freeList
            prev_total_size := oldSize }
    | none =>
      if extraSize < blockHeaderSize + kMinBlockSize then none
      else
        some
          { s with
            total_size := newSize
            blocks := [⟨oldSize, extraSize, 0, kDefaultAlignment, false⟩]
            block_count := s.block_count + 1
            free_count := s.free_count + 1
            freeList := oldSize :: s.freeList
            prev_total_size := oldSize }

/-- `PersistMemoryManager::allocate(user_size, alignment)`.  Returns the
user address, the state of the *installed* manager when the call returns,
and whether the backing buffer was replaced (`s_instance` no longer equals
the `this` the call started on).  A failed growth leaves the state
untouched.  The `none` results on a failed `splitAtOff` are unreachable on
a well-formed heap, where every free-list offset designates a block. -/
def pmmAllocateEx (base : Nat) (growOk : Bool) (user_size alignment : Nat)
    (s : MgrState) : Option Nat × MgrState × Bool :=
  if user_size = 0 then (none, s, false)
  else if !isValidAlignment alignment then (none, s, false)
  else
    let needed := requiredBlockSize user_size alignment
    match findFit s needed with
    | some off =>
      match splitAtOff s.blocks off with
      | some (pre, blk, post) =>
        let r := allocFromBlock s pre blk post user_size alignment
        (some (userAddr base r.1), r.2, false)
      | none => (none, s, false)
    | none =>
      match pmmExpand growOk user_size alignment s with
      | none => (none, s, false)
      | some s1 =>
        match findFit s1 needed with
        | some off =>
          match splitAtOff s1.blocks off with
          | some (pre, blk, post) =>
            let r := allocFromBlock s1 pre blk post user_size alignment
            (some (userAddr base r.1), r.2, true)
          | none => (none, s1, true)
        | none => (none, s1, true)

/-- `PersistMemoryManager::coalesce(blk)` on the decomposition
`blocks = pre ++ blk :: post` with `blk` free: absorb the next block if it
is free, then let the previous block absorb the survivor if it is free.
Each merge unlinks both participants from the free list, reinserts the
survivor at the head and decrements `block_count` and `free_count`. -/
def coalesceAt (s : MgrState) (pre : List Block) (blk : Block)
    (post : List Block) : MgrState :=
  let fwd :=
    match post with
    | nxt :: rest =>
      if !nxt.used then
        let merged : Block := { blk with total_size := blk.total_size + nxt.total_size }
        (merged, rest,
          { s with
            blocks := pre ++ merged :: rest
            freeList := merged.offset :: ((s.freeList.erase blk.offset).erase nxt.offset)
            block_count := s.block_count - 1
            free_count := s.free_count - 1 })
      else (blk, post, s)
    | [] => (blk, post, s)
  let blk1 := fwd.1
  let post1 := fwd.2.1
  let s1 := fwd.2.2
  match pre.getLast? with
  | some prv =>
    if !prv.used then
      let merged : Block := { prv with total_size := prv.total_size + blk1.total_size }
      { s1 with
        blocks := pre.dropLast ++ merged :: post1
        freeList := merged.offset :: ((s1.freeList.erase prv.offset).erase blk1.offset)
        block_count := s1.block_count - 1
        free_count := s1.free_count - 1 }
    else s1
  | none => s1

/-- `PersistMemoryManager::deallocate(ptr)`.  `ptr` is an absolute address;
`ptr = 0` models the null pointer.  The translation through `prev_base`
is the identity on offsets (see the file comment) and is therefore not
repeated.  Header recovery failing, or recovering a block not marked used,
leaves the state untouched. -/
def pmmDeallocate (base ptr : Nat) (s : MgrState) : MgrState :=
  if ptr = 0 then s
  else
    match headerFromPtr base s.blocks ptr with
    | none => s
    | some blk =>
      if !blk.used then s
      else
        match splitAtOff s.blocks blk.offset with
        | none => s
        | some (pre, b, post) =>
          let freed := b.user_size
          let b' : Block := { b with used := false, user_size := 0 }
          let s1 : MgrState :=
            { s with
              blocks := pre ++ b' :: post
              alloc_count := s.alloc_count - 1
              free_count := s.free_count + 1
              used_size := if freed ≤ s.used_size then s.used_size - freed else s.used_size
              freeList := b.offset :: s.freeList }
          coalesceAt s1 pre b' post

/-- `PersistMemoryManager::reallocate(ptr, new_size)`.  After a growth
inside the inner `allocate`, the singleton points at the new buffer while
`this` still designates the stale pre-growth buffer; the subsequent
`deallocate(ptr)` therefore mutates the stale buffer and the installed
manager keeps the state the inner `allocate` left it in.  That dispatch is
reflected by the `grew` flag.  The `std::memcpy` of the old user bytes
into the new block changes no metadata and has no counterpart here. -/
def pmmReallocate (base : Nat) (growOk : Bool) (ptr new_size : Nat)
    (s : MgrState) : Option Nat × MgrState :=
  if ptr = 0 then
    let r := pmmAllocateEx base growOk new_size kDefaultAlignment s
    (r.1, r.2.1)
  else if new_size = 0 then (none, pmmDeallocate base ptr s)
  else
    match headerFromPtr base s.blocks ptr with
    | none => (none, s)
    | some blk =>
      if !blk.used then (none, s)
      else if new_size ≤ blk.user_size then (some ptr, s)
      else
        match pmmAllocateEx base growOk new_size blk.alignment s with
        | (none, s1, _) => (none, s1)
        | (some newPtr, s1, grew) =>
          if grew then (some newPtr, s1)
          else (some newPtr, pmmDeallocate base ptr s1)

/-- `PersistMemoryManager::rebuild_free_list`: walk the all-blocks list
once and head-insert every free block into a fresh free list. -/
def rebuildFreeList (bs : List Block) : List Nat :=
  bs.foldl (fun fl b => if !b.used then b.offset :: fl else fl) []

/-- `PersistMemoryManager::save`: the heap image written to the file is
exactly the `total_size` bytes of the buffer, which this embedding
represents by the state itself. -/
def pmmSave (s : MgrState) : MgrState := s

/-- `PersistMemoryManager::destroy` zeroes the live buffer's magic and
releases the owned buffers; a previously saved image is a byte copy and is
unaffected. -/
def pmmDestroy (s : MgrState) : MgrState := { s with magic := 0 }

/-- `PersistMemoryManager::load(memory, size)` applied to a saved image:
checks the buffer, the magic and that the recorded `total_size` equals the
buffer size, clears the growth history and rebuilds the free list from the
persisted `used` bits. -/
def pmmLoad (memoryNull : Bool) (size : Nat) (img : MgrState) : Option MgrState :=
  if memoryNull || size < kMinMemorySize then none
  else if img.magic ≠ kMagic ∨ img.total_size ≠ size then none
  else
    some
      { img with
        prev_total_size := 0
        freeList := rebuildFreeList img.blocks }

/-- Growth-size policy as §4.4 of the specification words it: "the new
buffer size is `max(old × 5/4, old + needed + header_overhead)`", where
`header_overhead` is the block-header size rounded up to the default
alignment.  Stated from the spec's words, for comparison with the size
`pmmExpand` actually chooses. -/
def specGrownSize (old needed : Nat) : Nat :=
  max (old * kGrowNumerator / kGrowDenominator)
    (old + needed + alignUp blockHeaderSize kDefaultAlignment)

/-- Spatial well-formedness of the all-blocks list: blocks are contiguous
starting at `off`, each block's offset is the end of its predecessor, and
every block is non-empty.  This is the shape `create`, split, coalesce and
`expand` maintain and that the doubly-linked `prev/next` offsets record. -/
def chain : Nat → List Block → Prop
  | _, [] => True
  | off, b :: rest => b.offset = off ∧ 0 < b.total_size ∧ chain (off + b.total_size) rest

instance chainDecidable : (off : Nat) → (bs : List Block) → Decidable (chain off bs)
  | _, [] => .isTrue trivial
  | off, b :: rest =>
    have : Decidable (chain (off + b.total_size) rest) :=
      chainDecidable (off + b.total_size) rest
    inferInstanceAs (Decidable (_ ∧ _ ∧ _))

/-- The coalesce discipline: no two spatially adjacent blocks are both
free. -/
def noAdjFree (bs : List Block) : Prop :=
  List.Chain' (fun a b => a.used = true ∨ b.used = true) bs

/-- The internal well-formedness invariant maintained by every public
operation.  It implies the §3 invariants of the specification and
additionally fixes the `used_size` accounting and the validity of the
recorded alignments. -/
structure Inv (s : MgrState) : Prop where
  magic_ok : s.magic = kMagic
  min_size : kMinMemorySize ≤ s.total_size
  chain_ok : chain hdrEnd s.blocks
  total_eq : s.total_size = hdrEnd + sumTotal s.blocks
  used_eq : s.used_size = hdrEnd + blockHeaderSize + usedSum s.blocks
  free_perm : s.freeList.Perm (freeOffsets s.blocks)
  no_adj : noAdjFree s.blocks
  bc : s.block_count = s.blocks.length
  fc : s.free_count = (s.blocks.filter (fun b => !b.used)).length
  ac : s.alloc_count = (s.blocks.filter Block.used).length
  used_wf : ∀ b ∈ s.blocks, b.used = true → isValidAlignment b.alignment = true

/-- The §3 invariants of the specification, transcribed bullet by bullet:
matching magic, a well-formed spatially-ordered all-blocks list, the free
list holding exactly the free blocks with its length equal to
`free_count`, the coalesce discipline, the counter identity, minimum block
size and minimum-alignment multiplicity, the user area of every used block
aligned and inside the block (taken at base address 0), and the total-size
identity. -/
def SpecInv (s : MgrState) : Prop :=
  s.magic = kMagic ∧
  chain hdrEnd s.blocks ∧
  s.total_size = hdrEnd + sumTotal s.blocks ∧
  s.freeList.Perm (freeOffsets s.blocks) ∧
  s.freeList.length = s.free_count ∧
  noAdjFree s.blocks ∧
  s.block_count = s.free_count + s.alloc_count ∧
  (∀ b ∈ s.blocks, kMinBlockSize ≤ b.total_size ∧ b.total_size % kMinAlignment = 0) ∧
  (∀ b ∈ s.blocks, b.used = true →
    b.alignment ∣ userAddr 0 b ∧
    b.offset + blockHeaderSize ≤ userAddr 0 b ∧
    userAddr 0 b + b.user_size ≤ b.offset + b.total_size)

instance noAdjFreeDecidable : (bs : List Block) → Decidable (noAdjFree bs)
  | [] => .isTrue List.chain'_nil
  | [a] => .isTrue (List.chain'_singleton a)
  | a :: b :: rest =>
    have : Decidable (noAdjFree (b :: rest)) := noAdjFreeDecidable (b :: rest)
    decidable_of_iff ((a.used = true ∨ b.used = true) ∧ noAdjFree (b :: rest))
      (by unfold noAdjFree; rw [List.chain'_cons])

instance specInvDecidable (s : MgrState) : Decidable (SpecInv s) :=
  inferInstanceAs (Decidable
    (s.magic = kMagic ∧
     chain hdrEnd s.blocks ∧
     s.total_size = hdrEnd + sumTotal s.blocks ∧
     s.freeList.Perm (freeOffsets s.blocks) ∧
     s.freeList.length = s.free_count ∧
     noAdjFree s.blocks ∧
     s.block_count = s.free_count + s.alloc_count ∧
     (∀ b ∈ s.blocks,
        kMinBlockSize ≤ b.total_size ∧ b.total_size % kMinAlignment = 0) ∧
     (∀ b ∈ s.blocks, b.used = true →
        b.alignment ∣ userAddr 0 b ∧
        b.offset + blockHeaderSize ≤ userAddr 0 b ∧
        userAddr 0 b + b.user_size ≤ b.offset + b.total_size)))

/-- One public mutating operation of the installed manager, with all of
its inputs (buffer base, host-allocator oracle, pointer and size
arguments) chosen arbitrarily. -/
inductive Step : MgrState → MgrState → Prop
  | alloc (base : Nat) (growOk : Bool) (user_size alignment : Nat) (s : MgrState) :
      Step s (pmmAllocateEx base growOk user_size alignment s).2.1
  | dealloc (base ptr : Nat) (s : MgrState) :
      Step s (pmmDeallocate base ptr s)
  | realloc (base : Nat) (growOk : Bool) (ptr new_size : Nat) (s : MgrState) :
      Step s (pmmReallocate base growOk ptr new_size s).2

/-- States of the installed manager reachable from a successful `create`
by `allocate`, `deallocate` and `reallocate`. -/
inductive Reachable : MgrState → Prop
  | created (size : Nat) (s : MgrState) :
      pmmCreate false size = some s → Reachable s
  | step (s s' : MgrState) : Reachable s → Step s s' → Reachable s'

/-- The public operations of the manager surface. -/
inductive PublicOp
  | create | load | destroy | allocate | deallocate | reallocate
  | validate | save | getStats | getInfo
deriving DecidableEq

/-- The kind of synchronisation an operation performs on entry. -/
inductive LockKind
  | noLock
  | exclusiveRecursive
  | sharedLock
deriving DecidableEq

/-- The lock each public operation actually acquires in the source:
`create`, `load`, `destroy`, `allocate`, `deallocate` and `reallocate`
each take `std::lock_guard<std::recursive_mutex>` on the single static
`s_mutex`; `validate`, `save`, `get_stats` and `get_info` take no lock at
all.  No shared (reader) lock exists anywhere in the source. -/
def lockOf : PublicOp → LockKind
  | .create | .load | .destroy | .allocate | .deallocate | .reallocate =>
      .exclusiveRecursive
  | .validate | .save | .getStats | .getInfo => .noLock

/-- The operations the claim classifies as reads: `validate`, statistics
snapshots (`get_stats`, `get_info`) and save-to-file. -/
def isReadOp : PublicOp → Bool
  | .validate | .save | .getStats | .getInfo => true
  | _ => false

/-- The operations the claim classifies as writes. -/
def isWriteOp : PublicOp → Bool
  | .allocate | .deallocate | .reallocate => true
  | _ => false

/-- The state `create(memory, 4096)` produces: a header followed by a
single free block covering the remaining 4000 bytes. -/
def st4096 : MgrState :=
  { magic := kMagic, total_size := 4096, used_size := 168, block_count := 1,
    free_count := 1, alloc_count := 0,
    blocks := [⟨96, 4000, 0, 16, false⟩], freeList := [96],
    prev_total_size := 0 }

/-- `st4096` after `allocate(3913, 16)`, which consumes the free block
whole (no split) and returns user address 176: the heap is full. -/
def st4096a : MgrState := (pmmAllocateEx 0 true 3913 16 st4096).2.1

/-- The buffer `expand(937, 16)` builds from `st4096a`: 5120 bytes, the
old full block byte-copied and a fresh 1024-byte free block appended. -/
def stGrown937 : MgrState :=
  { magic := kMagic, total_size := 5120, used_size := 4081, block_count := 2,
    free_count := 1, alloc_count := 1,
    blocks := [⟨96, 4000, 3913, 16, true⟩, ⟨4096, 1024, 0, 16, false⟩],
    freeList := [4096], prev_total_size := 4096 }

/-- A 128-byte manager image: one minimum-size free block.  It satisfies
every §3 invariant, but is smaller than `kMinMemorySize`, so `load`
refuses it. -/
def st128 : MgrState :=
  { magic := kMagic, total_size := 128, used_size := 168, block_count := 1,
    free_count := 1, alloc_count := 0,
    blocks := [⟨96, 32, 0, 16, false⟩], freeList := [96],
    prev_total_size := 0 }

/-! ### Values of the layout constants -/

@[simp] theorem kDefaultAlignment_val : kDefaultAlignment = 16 := rfl

@[simp] theorem kMinAlignment_val : kMinAlignment = 8 := rfl

@[simp] theorem kMaxAlignment_val : kMaxAlignment = 4096 := rfl

@[simp] theorem kMinMemorySize_val : kMinMemorySize = 4096 := rfl

@[simp] theorem kMinBlockSize_val : kMinBlockSize = 32 := rfl

@[simp] theorem blockHeaderSize_val : blockHeaderSize = 72 := rfl

@[simp] theorem managerHeaderSize_val : managerHeaderSize = 96 := rfl

@[simp] theorem hdrEnd_val : hdrEnd = 96 := rfl

@[simp] theorem alignUp_blockHeader :
    alignUp blockHeaderSize kDefaultAlignment = 80 := rfl

@[simp] theorem alignUp_72_16 : alignUp 72 16 = 80 := rfl

@[simp] theorem kGrowNumerator_val : kGrowNumerator = 5 := rfl

@[simp] theorem kGrowDenominator_val : kGrowDenominator = 4 := rfl

/-! ### Arithmetic facts about `alignUp` and `requiredBlockSize` -/

theorem le_alignUp (v a : Nat) (ha : 0 < a) : v ≤ alignUp v a := by
  unfold alignUp
  rw [Nat.mul_comm]
  have h := Nat.div_add_mod (v + a - 1) a
  have hm : (v + a - 1) % a < a := Nat.mod_lt _ ha
  omega

theorem alignUp_le (v a : Nat) (ha : 0 < a) : alignUp v a ≤ v + (a - 1) := by
  unfold alignUp
  rw [Nat.mul_comm]
  have h := Nat.div_add_mod (v + a - 1) a
  omega

theorem dvd_alignUp (v a : Nat) : a ∣ alignUp v a :=
  ⟨(v + a - 1) / a, Nat.mul_comm _ _⟩

theorem requiredBlockSize_ge (u a : Nat) :
    blockHeaderSize + (a - 1) + u ≤ requiredBlockSize u a :=
  le_trans (le_max_left _ _) (le_alignUp _ _ (by norm_num [kMinAlignment]))

theorem kMinBlockSize_le_requiredBlockSize (u a : Nat) :
    kMinBlockSize ≤ requiredBlockSize u a :=
  le_trans (le_max_right _ _) (le_alignUp _ _ (by norm_num [kMinAlignment]))

theorem requiredBlockSize_pos (u a : Nat) : 0 < requiredBlockSize u a :=
  lt_of_lt_of_le (by norm_num [kMinBlockSize]) (kMinBlockSize_le_requiredBlockSize u a)

theorem isValidAlignment_bounds {a : Nat} (h : isValidAlignment a = true) :
    kMinAlignment ≤ a ∧ a ≤ kMaxAlignment := by
  simp only [isValidAlignment, Bool.and_eq_true, decide_eq_true_eq] at h
  exact ⟨h.1.1, h.1.2⟩

theorem isValidAlignment_pos {a : Nat} (h : isValidAlignment a = true) : 0 < a :=
  lt_of_lt_of_le (by norm_num [kMinAlignment]) (isValidAlignment_bounds h).1

/-! ### Sums and offset lists -/

@[simp] theorem sumTotal_nil : sumTotal [] = 0 := rfl

@[simp] theorem sumTotal_cons (b : Block) (bs : List Block) :
    sumTotal (b :: bs) = b.total_size + sumTotal bs := by
  simp [sumTotal]

@[simp] theorem sumTotal_append (xs ys : List Block) :
    sumTotal (xs ++ ys) = sumTotal xs + sumTotal ys := by
  simp [sumTotal]

@[simp] theorem usedSum_nil : usedSum [] = 0 := rfl

theorem usedSum_cons (b : Block) (bs : List Block) :
    usedSum (b :: bs) = (if b.used then b.user_size else 0) + usedSum bs := by
  by_cases h : b.used <;> simp [usedSum, List.filter_cons, h]

@[simp] theorem usedSum_append (xs ys : List Block) :
    usedSum (xs ++ ys) = usedSum xs + usedSum ys := by
  simp [usedSum, List.filter_append]

@[simp] theorem freeOffsets_nil : freeOffsets [] = [] := rfl

theorem freeOffsets_cons (b : Block) (bs : List Block) :
    freeOffsets (b :: bs) =
      if b.used then freeOffsets bs else b.offset :: freeOffsets bs := by
  by_cases h : b.used <;> simp [freeOffsets, List.filter_cons, h]

@[simp] theorem freeOffsets_append (xs ys : List Block) :
    freeOffsets (xs ++ ys) = freeOffsets xs ++ freeOffsets ys := by
  simp [freeOffsets, List.filter_append]

/-! ### The spatial chain -/

@[simp] theorem chain_nil (off : Nat) : chain off [] := trivial

theorem chain_cons {off : Nat} {b : Block} {bs : List Block} :
    chain off (b :: bs) ↔
      b.offset = off ∧ 0 < b.total_size ∧ chain (off + b.total_size) bs :=
  Iff.rfl

theorem chain_append {xs : List Block} {ys : List Block} {off : Nat} :
    chain off (xs ++ ys) ↔ chain off xs ∧ chain (off + sumTotal xs) ys := by
  induction xs generalizing off with
  | nil => simp [chain]
  | cons b rest ih =>
    simp only [List.cons_append, chain_cons, ih, sumTotal_cons, ← Nat.add_assoc]
    tauto

theorem chain_lb {off : Nat} {bs : List Block} (h : chain off bs) :
    ∀ b ∈ bs, off ≤ b.offset := by
  induction bs generalizing off with
  | nil => intro b hb; cases hb
  | cons x rest ih =>
    intro b hb
    rcases h with ⟨hx, ht, hrest⟩
    rcases List.mem_cons.mp hb with rfl | hb
    · omega
    · have := ih hrest b hb
      omega

theorem chain_ub {off : Nat} {bs : List Block} (h : chain off bs) :
    ∀ b ∈ bs, b.offset + b.total_size ≤ off + sumTotal bs := by
  induction bs generalizing off with
  | nil => intro b hb; cases hb
  | cons x rest ih =>
    intro b hb
    rcases h with ⟨hx, ht, hrest⟩
    rcases List.mem_cons.mp hb with rfl | hb
    · have := chain_lb hrest
      simp only [sumTotal_cons]
      omega
    · have := ih hrest b hb
      simp only [sumTotal_cons]
      omega

theorem chain_pairwise {off : Nat} {bs : List Block} (h : chain off bs) :
    bs.Pairwise (fun x y => x.offset < y.offset) := by
  induction bs generalizing off with
  | nil => exact List.Pairwise.nil
  | cons x rest ih =>
    rcases h with ⟨hx, ht, hrest⟩
    refine List.Pairwise.cons ?_ (ih hrest)
    intro y hy
    have := chain_lb hrest y hy
    omega

theorem chain_unique {off : Nat} {bs : List Block} (h : chain off bs)
    {x y : Block} (hx : x ∈ bs) (hy : y ∈ bs) (hoff : x.offset = y.offset) :
    x = y := by
  by_contra hne
  have hpw : bs.Pairwise (fun a b => a.offset ≠ b.offset) :=
    (chain_pairwise h).imp (fun hlt => Nat.ne_of_lt hlt)
  exact (hpw.forall (fun a b hab => Ne.symm hab) hx hy hne) hoff

theorem chain_pos {off : Nat} {bs : List Block} (h : chain off bs) :
    ∀ b ∈ bs, 0 < b.total_size := by
  induction bs generalizing off with
  | nil => intro b hb; cases hb
  | cons x rest ih =>
    intro b hb
    rcases h with ⟨hx, ht, hrest⟩
    rcases List.mem_cons.mp hb with rfl | hb
    · exact ht
    · exact ih hrest b hb

theorem chain_decomp_lt {off : Nat} {pre : List Block} {b : Block}
    {post : List Block} (h : chain off (pre ++ b :: post)) :
    (∀ x ∈ pre, x.offset < b.offset) ∧ (∀ y ∈ post, b.offset < y.offset) := by
  have h1 := (chain_append.mp h).1
  have h2 := (chain_append.mp h).2
  rcases h2 with ⟨hb, ht, hpost⟩
  constructor
  · intro x hx
    have hub := chain_ub h1 x hx
    have hpos := chain_pos h1 x hx
    omega
  · intro y hy
    have := chain_lb hpost y hy
    omega

/-! ### Lookup, zipper and scan lemmas -/

theorem mem_freeOffsets {bs : List Block} {o : Nat} :
    o ∈ freeOffsets bs ↔ ∃ b ∈ bs, b.used = false ∧ b.offset = o := by
  simp only [freeOffsets, List.mem_map, List.mem_filter, Bool.not_eq_true']
  constructor
  · rintro ⟨b, ⟨hb, hu⟩, ho⟩; exact ⟨b, hb, hu, ho⟩
  · rintro ⟨b, hb, hu, ho⟩; exact ⟨b, ⟨hb, hu⟩, ho⟩

theorem blockAt_some {bs : List Block} {off : Nat} {b : Block}
    (h : blockAt bs off = some b) : b ∈ bs ∧ b.offset = off := by
  refine ⟨List.mem_of_find?_eq_some h, ?_⟩
  have := List.find?_some h
  simpa using this

theorem blockAt_of_mem {off0 : Nat} {bs : List Block} (hc : chain off0 bs)
    {b : Block} (hb : b ∈ bs) : blockAt bs b.offset = some b := by
  induction bs generalizing off0 with
  | nil => cases hb
  | cons x rest ih =>
    obtain ⟨hx, ht, hrest⟩ := hc
    by_cases he : x.offset = b.offset
    · have hxb : x = b :=
        chain_unique (chain_cons.mpr ⟨hx, ht, hrest⟩) (List.mem_cons_self x rest)
          hb he
      subst hxb
      unfold blockAt
      rw [List.find?_cons_of_pos _ (by simp)]
    · have hbr : b ∈ rest := by
        rcases List.mem_cons.mp hb with rfl | hr
        · exact absurd rfl he
        · exact hr
      unfold blockAt
      rw [List.find?_cons_of_neg _ (by simp [he])]
      exact ih hrest hbr

theorem blockAt_append_right {xs ys : List Block} {off : Nat}
    (h : ∀ x ∈ xs, x.offset ≠ off) :
    blockAt (xs ++ ys) off = blockAt ys off := by
  induction xs with
  | nil => rfl
  | cons x rest ih =>
    unfold blockAt at ih ⊢
    rw [List.cons_append,
      List.find?_cons_of_neg _ (by simp [h x (List.mem_cons_self x rest)])]
    exact ih fun y hy => h y (List.mem_cons_of_mem x hy)

theorem splitAtOff_eq :
    ∀ {bs : List Block} {off : Nat} {pre : List Block} {b : Block}
      {post : List Block},
      splitAtOff bs off = some (pre, b, post) →
        bs = pre ++ b :: post ∧ b.offset = off := by
  intro bs
  induction bs with
  | nil => intro off pre b post h; simp [splitAtOff] at h
  | cons x rest ih =>
    intro off pre b post h
    simp only [splitAtOff] at h
    split at h
    · rename_i hx
      simp only [Option.some.injEq, Prod.mk.injEq] at h
      obtain ⟨rfl, rfl, rfl⟩ := h
      exact ⟨rfl, hx⟩
    · rename_i hx
      split at h
      · rename_i pre' b' post' heq
        simp only [Option.some.injEq, Prod.mk.injEq] at h
        obtain ⟨rfl, rfl, rfl⟩ := h
        obtain ⟨hrest, hoff⟩ := ih heq
        exact ⟨by rw [List.cons_append, hrest], hoff⟩
      · cases h

theorem splitAtOff_of_blockAt {bs : List Block} {off : Nat} {b : Block}
    (h : blockAt bs off = some b) :
    ∃ pre post, splitAtOff bs off = some (pre, b, post) := by
  induction bs with
  | nil => simp [blockAt] at h
  | cons x rest ih =>
    by_cases hx : x.offset = off
    · unfold blockAt at h
      rw [List.find?_cons_of_pos _ (by simp [hx])] at h
      obtain rfl : x = b := by simpa using h
      exact ⟨[], rest, by simp [splitAtOff, hx]⟩
    · unfold blockAt at h
      rw [List.find?_cons_of_neg _ (by simp [hx])] at h
      obtain ⟨pre, post, heq⟩ := ih h
      exact ⟨x :: pre, post, by simp [splitAtOff, hx, heq]⟩

theorem findFit_some {s : MgrState} {needed off : Nat}
    (h : findFit s needed = some off) :
    off ∈ s.freeList ∧
      ∃ b, blockAt s.blocks off = some b ∧ needed ≤ b.total_size := by
  refine ⟨List.mem_of_find?_eq_some h, ?_⟩
  have hp := List.find?_some h
  cases hm : blockAt s.blocks off with
  | none => simp [hm] at hp
  | some b =>
    refine ⟨b, rfl, ?_⟩
    simp [hm] at hp
    exact hp

theorem findFit_none {s : MgrState} {needed : Nat}
    (h : findFit s needed = none) :
    ∀ off ∈ s.freeList, ∀ b, blockAt s.blocks off = some b →
      b.total_size < needed := by
  intro off hoff b hb
  have := List.find?_eq_none.mp h off hoff
  simp [hb] at this
  omega

theorem findFit_head {s : MgrState} {needed off : Nat} {rest : List Nat}
    {b : Block} (hfl : s.freeList = off :: rest)
    (hb : blockAt s.blocks off = some b) (hle : needed ≤ b.total_size) :
    findFit s needed = some off := by
  unfold findFit
  rw [hfl]
  exact List.find?_cons_of_pos _ (by simp [hb, hle])

theorem headerFromPtr_some {base : Nat} {bs : List Block} {ptr : Nat}
    {b : Block} (h : headerFromPtr base bs ptr = some b) :
    b ∈ bs ∧ b.used = true ∧ userAddr base b = ptr := by
  obtain ⟨k, hk, hfk⟩ := List.exists_of_findSome?_eq_some h
  dsimp only at hfk
  split at hfk
  · cases hfk
  · split at hfk
    · rename_i cand hm
      split at hfk
      · rename_i h2
        simp only [Bool.and_eq_true, beq_iff_eq] at h2
        obtain rfl : cand = b := by simpa using hfk
        exact ⟨(blockAt_some hm).1, h2.1, h2.2⟩
      · cases hfk
    · cases hfk

theorem erase_middle_nat {xs ys : List Nat} {a : Nat} (h : a ∉ xs) :
    (xs ++ a :: ys).erase a = xs ++ ys := by
  rw [List.erase_append_right _ h, List.erase_cons_head]

theorem perm_erase_middle {fl xs ys : List Nat} {a : Nat}
    (hp : fl.Perm (xs ++ a :: ys)) (hx : a ∉ xs) :
    (fl.erase a).Perm (xs ++ ys) := by
  have := hp.erase a
  rwa [erase_middle_nat hx] at this

/-! ### Preservation of the coalesce discipline -/

theorem noAdjFree_set_used {pre post : List Block} {blk b1 : Block}
    (h : noAdjFree (pre ++ blk :: post)) (hb1 : b1.used = true) :
    noAdjFree (pre ++ b1 :: post) := by
  obtain ⟨h1, h2, h3⟩ := List.chain'_append.mp h
  refine List.chain'_append.mpr ⟨h1, ?_, ?_⟩
  · obtain ⟨hh, ht⟩ := List.chain'_cons'.mp h2
    exact List.chain'_cons'.mpr ⟨fun y hy => Or.inl hb1, ht⟩
  · intro x hx y hy
    simp only [List.head?_cons, Option.mem_def, Option.some.injEq] at hy
    subst hy
    exact Or.inr hb1

theorem noAdjFree_split_blocks {pre post : List Block} {blk b1 b2 : Block}
    (h : noAdjFree (pre ++ blk :: post)) (hfree : blk.used = false)
    (hb1 : b1.used = true) (hb2 : b2.used = false) :
    noAdjFree (pre ++ b1 :: b2 :: post) := by
  obtain ⟨h1, h2, h3⟩ := List.chain'_append.mp h
  obtain ⟨hh, ht⟩ := List.chain'_cons'.mp h2
  refine List.chain'_append.mpr ⟨h1, ?_, ?_⟩
  · refine List.chain'_cons'.mpr ⟨fun y hy => Or.inl hb1, ?_⟩
    refine List.chain'_cons'.mpr ⟨fun y hy => ?_, ht⟩
    rcases hh y hy with hc | hc
    · rw [hfree] at hc; cases hc
    · exact Or.inr hc
  · intro x hx y hy
    simp only [List.head?_cons, Option.mem_def, Option.some.injEq] at hy
    subst hy
    exact Or.inr hb1

/-! ### `create` establishes the invariant -/

theorem create_inv {mn : Bool} {size : Nat} {s : MgrState}
    (h : pmmCreate mn size = some s) : Inv s := by
  unfold pmmCreate at h
  split at h
  · cases h
  split at h
  · cases h
  rename_i h1 h2
  have hsz : kMinMemorySize ≤ size := by
    simp only [Bool.or_eq_true, decide_eq_true_eq, not_or] at h1
    omega
  simp only [Option.some.injEq] at h
  subst h
  have hsz' : 4096 ≤ size := by simpa using hsz
  refine ⟨rfl, hsz, ?_, ?_, ?_, ?_, ?_, ?_, ?_, ?_, ?_⟩
  · refine chain_cons.mpr ⟨rfl, ?_, trivial⟩
    show 0 < size - hdrEnd
    simp only [hdrEnd_val]
    omega
  · show size = hdrEnd + sumTotal _
    simp only [sumTotal_cons, sumTotal_nil, hdrEnd_val]
    show size = 96 + (size - 96 + 0)
    omega
  · simp [usedSum]
  · exact List.Perm.refl _
  · simp [noAdjFree]
  · rfl
  · rfl
  · rfl
  · intro b hb hu
    rcases List.mem_singleton.mp hb with rfl
    simp at hu

/-! ### `allocate_from_block` preserves the invariant -/

theorem allocFromBlock_spec {s : MgrState} {pre : List Block} {blk : Block}
    {post : List Block} {u a : Nat}
    (hInv : Inv s) (hbs : s.blocks = pre ++ blk :: post)
    (hfree : blk.used = false)
    (hfit : requiredBlockSize u a ≤ blk.total_size)
    (hva : isValidAlignment a = true) (hu : 0 < u) :
    Inv (allocFromBlock s pre blk post u a).2 ∧
    (allocFromBlock s pre blk post u a).1 ∈
      (allocFromBlock s pre blk post u a).2.blocks ∧
    (allocFromBlock s pre blk post u a).1.used = true ∧
    (allocFromBlock s pre blk post u a).1.user_size = u ∧
    (allocFromBlock s pre blk post u a).1.alignment = a ∧
    (allocFromBlock s pre blk post u a).1.offset = blk.offset ∧
    requiredBlockSize u a ≤ (allocFromBlock s pre blk post u a).1.total_size ∧
    (allocFromBlock s pre blk post u a).2.total_size = s.total_size := by
  obtain ⟨hmg, hms, hch, hte, hue, hfp, hna, hbc, hfc, hac, hwf⟩ := hInv
  rw [hbs] at hch hte hue hfp hna hbc hfc hac
  have hwf' : ∀ b ∈ pre ++ blk :: post, b.used = true →
      isValidAlignment b.alignment = true := by
    intro b hb; exact hwf b (hbs ▸ hb)
  have hchPre := (chain_append.mp hch).1
  obtain ⟨hoff, hpos, hchPost⟩ := chain_cons.mp (chain_append.mp hch).2
  have hlt := chain_decomp_lt hch
  have hnotpre : blk.offset ∉ freeOffsets pre := by
    intro hmem
    obtain ⟨x, hx, hxu, hxo⟩ := mem_freeOffsets.mp hmem
    exact absurd (hxo ▸ hlt.1 x hx) (lt_irrefl _)
  have hfp' : s.freeList.Perm (freeOffsets pre ++ blk.offset :: freeOffsets post) := by
    simpa [freeOffsets_cons, hfree] using hfp
  have hflErase : (s.freeList.erase blk.offset).Perm
      (freeOffsets pre ++ freeOffsets post) := perm_erase_middle hfp' hnotpre
  by_cases hsplit :
      requiredBlockSize u a + (blockHeaderSize + kMinBlockSize) ≤ blk.total_size
  · simp only [allocFromBlock]
    rw [if_pos hsplit]
    refine ⟨⟨hmg, hms, ?_, ?_, ?_, ?_, ?_, ?_, ?_, ?_, ?_⟩, ?_, rfl, rfl, rfl,
      rfl, le_refl _, rfl⟩
    · refine chain_append.mpr ⟨hchPre, ?_⟩
      refine chain_cons.mpr ⟨hoff, requiredBlockSize_pos u a, ?_⟩
      refine chain_cons.mpr ⟨?_, ?_, ?_⟩
      · show blk.offset + requiredBlockSize u a =
          hdrEnd + sumTotal pre + requiredBlockSize u a
        omega
      · show 0 < blk.total_size - requiredBlockSize u a
        simp only [blockHeaderSize_val, kMinBlockSize_val] at hsplit
        omega
      · show chain
          (hdrEnd + sumTotal pre + requiredBlockSize u a +
            (blk.total_size - requiredBlockSize u a)) post
        have harith :
            hdrEnd + sumTotal pre + requiredBlockSize u a +
              (blk.total_size - requiredBlockSize u a) =
            hdrEnd + sumTotal pre + blk.total_size := by omega
        rw [harith]
        exact hchPost
    · simp only [sumTotal_append, sumTotal_cons] at hte ⊢
      show s.total_size = hdrEnd + (sumTotal pre +
        (requiredBlockSize u a + (blk.total_size - requiredBlockSize u a + sumTotal post)))
      omega
    · show s.used_size + u = hdrEnd + blockHeaderSize + usedSum _
      simp [usedSum_append, usedSum_cons, hfree] at hue ⊢
      omega
    · show ((blk.offset + requiredBlockSize u a) ::
        s.freeList.erase blk.offset).Perm (freeOffsets _)
      have hgoal : freeOffsets (pre ++
          (⟨blk.offset, requiredBlockSize u a, u, a, true⟩ : Block) ::
          (⟨blk.offset + requiredBlockSize u a,
            blk.total_size - requiredBlockSize u a, 0, kDefaultAlignment,
            false⟩ : Block) :: post) =
          freeOffsets pre ++ (blk.offset + requiredBlockSize u a) :: freeOffsets post := by
        simp [freeOffsets_cons]
      rw [hgoal]
      exact (hflErase.cons _).trans List.perm_middle.symm
    · exact noAdjFree_split_blocks hna hfree rfl rfl
    · show s.block_count + 1 = (pre ++ _ :: _ :: post).length
      simp only [List.length_append, List.length_cons] at hbc ⊢
      omega
    · show s.free_count + 1 - 1 = (List.filter _ (pre ++ _ :: _ :: post)).length
      simp only [List.filter_append, List.filter_cons, hfree, List.length_append] at hfc ⊢
      simp at hfc ⊢
      omega
    · show s.alloc_count + 1 = (List.filter _ (pre ++ _ :: _ :: post)).length
      simp only [List.filter_append, List.filter_cons, hfree, List.length_append] at hac ⊢
      simp at hac ⊢
      omega
    · intro b hb hu2
      rcases List.mem_append.mp hb with hb | hb
      · exact hwf' b (List.mem_append_left _ hb) hu2
      · rcases List.mem_cons.mp hb with rfl | hb
        · exact hva
        · rcases List.mem_cons.mp hb with rfl | hb
          · cases hu2
          · exact hwf' b (List.mem_append_right _ (List.mem_cons_of_mem _ hb)) hu2
    · exact List.mem_append.mpr (Or.inr (List.mem_cons_self _ _))
  · simp only [allocFromBlock]
    rw [if_neg hsplit]
    refine ⟨⟨hmg, hms, ?_, ?_, ?_, ?_, ?_, ?_, ?_, ?_, ?_⟩, ?_, rfl, rfl, rfl,
      rfl, hfit, rfl⟩
    · exact chain_append.mpr ⟨hchPre, chain_cons.mpr ⟨hoff, hpos, hchPost⟩⟩
    · simp only [sumTotal_append, sumTotal_cons] at hte ⊢
      exact hte
    · show s.used_size + u = hdrEnd + blockHeaderSize + usedSum _
      simp [usedSum_append, usedSum_cons, hfree] at hue ⊢
      omega
    · show (s.freeList.erase blk.offset).Perm (freeOffsets _)
      have hgoal : freeOffsets (pre ++
          (⟨blk.offset, blk.total_size, u, a, true⟩ : Block) :: post) =
          freeOffsets pre ++ freeOffsets post := by
        simp [freeOffsets_cons]
      rw [hgoal]
      exact hflErase
    · exact noAdjFree_set_used hna rfl
    · show s.block_count = (pre ++ _ :: post).length
      simp only [List.length_append, List.length_cons] at hbc ⊢
      omega
    · show s.free_count - 1 = (List.filter _ (pre ++ _ :: post)).length
      simp only [List.filter_append, List.filter_cons, hfree, List.length_append] at hfc ⊢
      simp at hfc ⊢
      omega
    · show s.alloc_count + 1 = (List.filter _ (pre ++ _ :: post)).length
      simp only [List.filter_append, List.filter_cons, hfree, List.length_append] at hac ⊢
      simp at hac ⊢
      omega
    · intro b hb hu2
      rcases List.mem_append.mp hb with hb | hb
      · exact hwf' b (List.mem_append_left _ hb) hu2
      · rcases List.mem_cons.mp hb with rfl | hb
        · exact hva
        · exact hwf' b (List.mem_append_right _ (List.mem_cons_of_mem _ hb)) hu2
    · exact List.mem_append.mpr (Or.inr (List.mem_cons_self _ _))

/-! ### `expand` preserves the invariant and follows the size policy -/

theorem noAdjFree_replace_last {init : List Block} {x y : Block}
    (h : noAdjFree (init ++ [x])) (hxy : y.used = x.used) :
    noAdjFree (init ++ [y]) := by
  obtain ⟨h1, h2, h3⟩ := List.chain'_append.mp h
  refine List.chain'_append.mpr ⟨h1, List.chain'_singleton _, ?_⟩
  intro p hp q hq
  simp only [List.head?_cons, Option.mem_def, Option.some.injEq] at hq
  subst hq
  rcases h3 p hp x (by simp) with hc | hc
  · exact Or.inl hc
  · exact Or.inr (hxy.trans hc)

theorem noAdjFree_append_free {bs : List Block} {nb lastB : Block}
    (h : noAdjFree bs) (hl : bs.getLast? = some lastB)
    (hu : lastB.used = true) : noAdjFree (bs ++ [nb]) := by
  refine List.chain'_append.mpr ⟨h, List.chain'_singleton _, ?_⟩
  intro x hx y hy
  simp only [Option.mem_def] at hx
  rw [hl] at hx
  obtain rfl : lastB = x := by simpa using hx
  exact Or.inl hu

theorem expand_spec {growOk : Bool} {u a : Nat} {s s' : MgrState}
    (hInv : Inv s) (h : pmmExpand growOk u a s = some s') :
    Inv s' ∧
    s'.total_size =
      (if s.total_size * kGrowNumerator / kGrowDenominator <
          s.total_size + requiredBlockSize u a then
        s.total_size + requiredBlockSize u a +
          alignUp blockHeaderSize kDefaultAlignment
      else s.total_size * kGrowNumerator / kGrowDenominator) ∧
    s.total_size * kGrowNumerator / kGrowDenominator ≤ s'.total_size ∧
    s.total_size ≤ s'.total_size ∧
    (∃ off rest b, s'.freeList = off :: rest ∧
      blockAt s'.blocks off = some b ∧ b.used = false ∧
      requiredBlockSize u a ≤ b.total_size) := by
  obtain ⟨hmg, hms, hch, hte, hue, hfp, hna, hbc, hfc, hac, hwf⟩ := hInv
  have hnd32 : 32 ≤ requiredBlockSize u a := by
    simpa using kMinBlockSize_le_requiredBlockSize u a
  have hms' : 4096 ≤ s.total_size := by simpa using hms
  simp only [pmmExpand, kGrowNumerator_val, kGrowDenominator_val,
    blockHeaderSize_val, kMinBlockSize_val, kDefaultAlignment_val,
    alignUp_72_16] at h ⊢
  generalize hnsz :
    ((if s.total_size * 5 / 4 < s.total_size + requiredBlockSize u a then
        s.total_size + requiredBlockSize u a + 80
      else s.total_size * 5 / 4) : Nat) = nsz at h ⊢
  have hkey : s.total_size * 5 / 4 ≤ nsz ∧
      s.total_size + requiredBlockSize u a ≤ nsz ∧
      112 ≤ nsz - s.total_size := by
    rcases Nat.lt_or_ge (s.total_size * 5 / 4)
        (s.total_size + requiredBlockSize u a) with hc | hc
    · rw [if_pos hc] at hnsz; omega
    · rw [if_neg (not_lt.mpr hc)] at hnsz; omega
  split at h
  · cases h
  · split at h
    · -- the all-blocks list is non-empty; `lastBlk` is its last block
      rename_i lastBlk hlast
      obtain ⟨init, hinit⟩ := List.getLast?_eq_some_iff.mp hlast
      have hdrop : s.blocks.dropLast = init := by
        rw [hinit, List.dropLast_concat]
      split at h
      · -- the last block is free: it absorbs the new bytes
        rename_i hlf
        have hlfree : lastBlk.used = false := by simpa using hlf
        obtain rfl := Option.some.inj h
        rw [hinit] at hch hte hue hfp hna hbc hfc hac
        have hwf' : ∀ b ∈ init ++ [lastBlk], b.used = true →
            isValidAlignment b.alignment = true := by
          intro b hb; exact hwf b (hinit ▸ hb)
        have hchInit := (chain_append.mp hch).1
        obtain ⟨hloff, hlpos, -⟩ := chain_cons.mp (chain_append.mp hch).2
        have hlt := @chain_decomp_lt _ _ _ [] hch
        have hnotin : lastBlk.offset ∉ freeOffsets init := by
          intro hmem
          obtain ⟨x, hx, hxu, hxo⟩ := mem_freeOffsets.mp hmem
          exact absurd (hxo ▸ hlt.1 x hx) (lt_irrefl _)
        have hfp' : s.freeList.Perm
            (freeOffsets init ++ lastBlk.offset :: ([] : List Nat)) := by
          simpa [freeOffsets_cons, hlfree] using hfp
        have herase : (s.freeList.erase lastBlk.offset).Perm (freeOffsets init) := by
          have := perm_erase_middle hfp' hnotin
          simpa using this
        rw [hdrop]
        refine ⟨⟨hmg, by show 4096 ≤ nsz; omega, ?_, ?_, ?_, ?_, ?_, ?_, ?_, ?_,
          ?_⟩, rfl, by show _ ≤ nsz; omega, by show _ ≤ nsz; omega, ?_⟩
        · refine chain_append.mpr ⟨hchInit, ?_⟩
          refine chain_cons.mpr ⟨hloff, ?_, trivial⟩
          show 0 < lastBlk.total_size + (nsz - s.total_size)
          omega
        · show nsz = hdrEnd + sumTotal (init ++ [_])
          simp only [sumTotal_append, sumTotal_cons, sumTotal_nil] at hte ⊢
          omega
        · show s.used_size = hdrEnd + blockHeaderSize + usedSum (init ++ [_])
          simp [usedSum_append, usedSum_cons, hlfree] at hue ⊢
          omega
        · show (lastBlk.offset :: s.freeList.erase lastBlk.offset).Perm
            (freeOffsets (init ++ [_]))
          have hgoal : freeOffsets (init ++
              [{ lastBlk with total_size := lastBlk.total_size + (nsz - s.total_size) }]) =
              freeOffsets init ++ [lastBlk.offset] := by
            simp [freeOffsets_cons, hlfree]
          rw [hgoal]
          exact (herase.cons _).trans (List.perm_append_singleton _ _).symm
        · exact noAdjFree_replace_last hna (by simp [hlfree])
        · show s.block_count = (init ++ [_]).length
          simpa using hbc
        · show s.free_count = (List.filter _ (init ++ [_])).length
          simp [List.filter_append, List.filter_cons, hlfree] at hfc ⊢
          omega
        · show s.alloc_count = (List.filter _ (init ++ [_])).length
          simp [List.filter_append, List.filter_cons, hlfree] at hac ⊢
          omega
        · intro b hb hu2
          rcases List.mem_append.mp hb with hb | hb
          · exact hwf' b (List.mem_append_left _ hb) hu2
          · rcases List.mem_singleton.mp hb with rfl
            exact hwf' lastBlk (List.mem_append_right _ (by simp)) (by simpa using hu2)
        · refine ⟨lastBlk.offset, s.freeList.erase lastBlk.offset,
            { lastBlk with total_size := lastBlk.total_size + (nsz - s.total_size) },
            rfl, ?_, hlfree, ?_⟩
          · rw [blockAt_append_right
              (fun x hx => Nat.ne_of_lt (hlt.1 x hx))]
            unfold blockAt
            exact List.find?_cons_of_pos _ (by simp)
          · show requiredBlockSize u a ≤ lastBlk.total_size + (nsz - s.total_size)
            omega
      · -- the last block is used: append a fresh free block over the new bytes
        rename_i hlu
        have hlused : lastBlk.used = true := by simpa using hlu
        split at h
        · cases h
        · rename_i hguard
          obtain rfl := Option.some.inj h
          have hwf' := hwf
          have hblocksUB : ∀ x ∈ s.blocks, x.offset < s.total_size := by
            intro x hx
            have h1 := chain_ub hch x hx
            have h2 := chain_pos hch x hx
            omega
          refine ⟨⟨hmg, by show 4096 ≤ nsz; omega, ?_, ?_, ?_, ?_, ?_, ?_, ?_, ?_,
            ?_⟩, rfl, by show _ ≤ nsz; omega, by show _ ≤ nsz; omega, ?_⟩
          · refine chain_append.mpr ⟨hch, ?_⟩
            refine chain_cons.mpr ⟨?_, ?_, trivial⟩
            · show s.total_size = hdrEnd + sumTotal s.blocks
              exact hte
            · show 0 < nsz - s.total_size
              omega
          · show nsz = hdrEnd + sumTotal (s.blocks ++ [_])
            simp only [sumTotal_append, sumTotal_cons, sumTotal_nil] at hte ⊢
            omega
          · show s.used_size = hdrEnd + blockHeaderSize + usedSum (s.blocks ++ [_])
            simp [usedSum_append, usedSum_cons] at hue ⊢
            omega
          · show (s.total_size :: s.freeList).Perm (freeOffsets (s.blocks ++ [_]))
            have hgoal : freeOffsets (s.blocks ++
                [(⟨s.total_size, nsz - s.total_size, 0, 16, false⟩ : Block)]) =
                freeOffsets s.blocks ++ [s.total_size] := by
              simp [freeOffsets_cons]
            rw [hgoal]
            exact (hfp.cons _).trans (List.perm_append_singleton _ _).symm
          · exact noAdjFree_append_free hna hlast hlused
          · show s.block_count + 1 = (s.blocks ++ [_]).length
            simpa using hbc
          · show s.free_count + 1 = (List.filter _ (s.blocks ++ [_])).length
            simp [List.filter_append, List.filter_cons] at hfc ⊢
            omega
          · show s.alloc_count = (List.filter _ (s.blocks ++ [_])).length
            simp [List.filter_append, List.filter_cons] at hac ⊢
            omega
          · intro b hb hu2
            rcases List.mem_append.mp hb with hb | hb
            · exact hwf b hb hu2
            · rcases List.mem_singleton.mp hb with rfl
              cases hu2
          · refine ⟨s.total_size, s.freeList,
              ⟨s.total_size, nsz - s.total_size, 0, 16, false⟩,
              rfl, ?_, rfl, ?_⟩
            · rw [blockAt_append_right
                (fun x hx => Nat.ne_of_lt (hblocksUB x hx))]
              unfold blockAt
              exact List.find?_cons_of_pos _ (by simp)
            · show requiredBlockSize u a ≤ nsz - s.total_size
              omega
    · -- the all-blocks list cannot be empty in an invariant state
      rename_i hlastnone
      have hempty : s.blocks = [] := List.getLast?_eq_none_iff.mp hlastnone
      rw [hempty] at hte
      simp only [sumTotal_nil, hdrEnd_val] at hte
      exfalso
      omega

theorem expand_growOk {growOk : Bool} {u a : Nat} {s s' : MgrState}
    (h : pmmExpand growOk u a s = some s') : growOk = true := by
  cases growOk
  · simp [pmmExpand] at h
  · rfl

theorem expand_none {growOk : Bool} {u a : Nat} {s : MgrState} (hInv : Inv s)
    (h : pmmExpand growOk u a s = none) : growOk = false := by
  cases hg : growOk with
  | false => rfl
  | true =>
    exfalso
    obtain ⟨hmg, hms, hch, hte, hue, hfp, hna, hbc, hfc, hac, hwf⟩ := hInv
    have hnd32 : 32 ≤ requiredBlockSize u a := by
      simpa using kMinBlockSize_le_requiredBlockSize u a
    have hms' : 4096 ≤ s.total_size := by simpa using hms
    subst hg
    simp only [pmmExpand, kGrowNumerator_val, kGrowDenominator_val,
      blockHeaderSize_val, kMinBlockSize_val, kDefaultAlignment_val,
      alignUp_72_16, Bool.not_true] at h
    generalize hnsz :
      ((if s.total_size * 5 / 4 < s.total_size + requiredBlockSize u a then
          s.total_size + requiredBlockSize u a + 80
        else s.total_size * 5 / 4) : Nat) = nsz at h
    have hkey : s.total_size * 5 / 4 ≤ nsz ∧
        s.total_size + requiredBlockSize u a ≤ nsz ∧
        112 ≤ nsz - s.total_size := by
      rcases Nat.lt_or_ge (s.total_size * 5 / 4)
          (s.total_size + requiredBlockSize u a) with hc | hc
      · rw [if_pos hc] at hnsz; omega
      · rw [if_neg (not_lt.mpr hc)] at hnsz; omega
    rw [if_neg (by simp)] at h
    split at h
    · split at h
      · cases h
      · split at h
        · rename_i hguard
          omega
        · cases h
    · rename_i hlastnone
      have hempty : s.blocks = [] := List.getLast?_eq_none_iff.mp hlastnone
      rw [hempty] at hte
      simp only [sumTotal_nil, hdrEnd_val] at hte
      omega

/-! ### `allocate` preserves the invariant; its failure conditions -/

theorem findFit_decomp {s : MgrState} {needed off : Nat} (hInv : Inv s)
    (h : findFit s needed = some off) :
    ∃ pre blk post, splitAtOff s.blocks off = some (pre, blk, post) ∧
      s.blocks = pre ++ blk :: post ∧ blk.used = false ∧
      needed ≤ blk.total_size := by
  obtain ⟨hmem, b, hb, hle⟩ := findFit_some h
  obtain ⟨pre, post, hsplit⟩ := splitAtOff_of_blockAt hb
  obtain ⟨hdecomp, hoff⟩ := splitAtOff_eq hsplit
  have hmem' : off ∈ freeOffsets s.blocks := hInv.free_perm.mem_iff.mp hmem
  obtain ⟨x, hx, hxu, hxo⟩ := mem_freeOffsets.mp hmem'
  have hxb : x = b :=
    chain_unique hInv.chain_ok hx (blockAt_some hb).1
      (by rw [hxo, (blockAt_some hb).2])
  exact ⟨pre, b, post, hsplit, hdecomp, hxb ▸ hxu, hle⟩

theorem allocateEx_spec (base : Nat) (growOk : Bool) (u a : Nat)
    {s : MgrState} (hInv : Inv s) :
    Inv (pmmAllocateEx base growOk u a s).2.1 ∧
    ((pmmAllocateEx base growOk u a s).1 = none →
      (pmmAllocateEx base growOk u a s).2.1 = s) ∧
    (0 < u → isValidAlignment a = true →
      ((pmmAllocateEx base growOk u a s).1 = none ↔
        findFit s (requiredBlockSize u a) = none ∧ growOk = false)) ∧
    (∀ p, (pmmAllocateEx base growOk u a s).1 = some p →
      ∃ b ∈ (pmmAllocateEx base growOk u a s).2.1.blocks,
        b.used = true ∧ b.user_size = u ∧ b.alignment = a ∧
        p = userAddr base b ∧ requiredBlockSize u a ≤ b.total_size) := by
  by_cases hu0 : u = 0
  · simp only [pmmAllocateEx, if_pos hu0]
    refine ⟨hInv, by simp, ?_, by intro p hp; cases hp⟩
    intro hu _
    exact absurd hu0 (Nat.pos_iff_ne_zero.mp hu)
  · have hupos : 0 < u := Nat.pos_of_ne_zero hu0
    by_cases hva : isValidAlignment a = true
    · simp only [pmmAllocateEx, if_neg hu0]
      rw [if_neg (by simp [hva])]
      cases hf : findFit s (requiredBlockSize u a) with
      | some off =>
        obtain ⟨pre, blk, post, hsplit, hdecomp, hfree, hfit⟩ :=
          findFit_decomp hInv hf
        obtain ⟨hinv', hmem, hused, husz, halign, hoffeq, hneed, htot⟩ :=
          allocFromBlock_spec hInv hdecomp hfree hfit hva hupos
        simp only [hsplit]
        refine ⟨hinv', ?_, ?_, ?_⟩
        · intro hp; cases hp
        · intro _ _
          constructor
          · intro hp; cases hp
          · rintro ⟨hfn, -⟩; cases hfn
        · intro p hp
          obtain rfl : userAddr base (allocFromBlock s pre blk post u a).1 = p := by
            simpa using hp
          exact ⟨(allocFromBlock s pre blk post u a).1, hmem, hused, husz,
            halign, rfl, hneed⟩
      | none =>
        cases he : pmmExpand growOk u a s with
        | none =>
          have hgf := expand_none hInv he
          refine ⟨hInv, fun _ => rfl, fun _ _ => ?_, fun p hp => by cases hp⟩
          simp [hgf]
        | some s1 =>
          obtain ⟨hinv1, htot1, hge1, hple1, hfit1⟩ := expand_spec hInv he
          obtain ⟨off, rest, b, hfl, hba, hbu, hble⟩ := hfit1
          have hf1 : findFit s1 (requiredBlockSize u a) = some off :=
            findFit_head hfl hba hble
          obtain ⟨pre, blk, post, hsplit, hdecomp, hfree, hfit'⟩ :=
            findFit_decomp hinv1 hf1
          obtain ⟨hinv', hmem, hused, husz, halign, hoffeq, hneed, htot⟩ :=
            allocFromBlock_spec hinv1 hdecomp hfree hfit' hva hupos
          simp only [hf1, hsplit]
          refine ⟨hinv', ?_, ?_, ?_⟩
          · intro hp; cases hp
          · intro _ _
            constructor
            · intro hp; cases hp
            · rintro ⟨-, hgf⟩
              rw [expand_growOk he] at hgf; cases hgf
          · intro p hp
            obtain rfl : userAddr base (allocFromBlock s1 pre blk post u a).1 = p := by
              simpa using hp
            exact ⟨(allocFromBlock s1 pre blk post u a).1, hmem, hused, husz,
              halign, rfl, hneed⟩
    · simp only [pmmAllocateEx, if_neg hu0]
      rw [if_pos (by simp [hva])]
      refine ⟨hInv, by simp, ?_, by intro p hp; cases hp⟩
      intro _ hva'
      exact absurd hva' hva

/-! ### `deallocate` preserves the invariant -/

theorem noAdjFree_build {pre post : List Block} {m : Block}
    (h1 : noAdjFree pre) (h2 : noAdjFree post)
    (hlast : ∀ x ∈ pre.getLast?, x.used = true ∨ m.used = true)
    (hhead : ∀ y ∈ post.head?, m.used = true ∨ y.used = true) :
    noAdjFree (pre ++ m :: post) := by
  refine List.chain'_append.mpr ⟨h1, ?_, ?_⟩
  · exact List.chain'_cons'.mpr ⟨fun y hy => hhead y hy, h2⟩
  · intro x hx y hy
    simp only [List.head?_cons, Option.mem_def, Option.some.injEq] at hy
    subst hy
    exact hlast x hx

theorem noAdjFree_last_of_concat_free {pre' : List Block} {prv : Block}
    (h : noAdjFree (pre' ++ [prv])) (hfree : prv.used = false) :
    ∀ x ∈ pre'.getLast?, x.used = true := by
  obtain ⟨h1, h2, h3⟩ := List.chain'_append.mp h
  intro x hx
  rcases h3 x hx prv (by simp) with hc | hc
  · exact hc
  · rw [hfree] at hc; cases hc

theorem noAdjFree_head_of_cons_free {nxt : Block} {rest : List Block}
    (h : noAdjFree (nxt :: rest)) (hfree : nxt.used = false) :
    ∀ y ∈ rest.head?, y.used = true := by
  obtain ⟨hh, -⟩ := List.chain'_cons'.mp h
  intro y hy
  rcases hh y hy with hc | hc
  · rw [hfree] at hc; cases hc
  · exact hc

theorem deallocate_inv (base ptr : Nat) {s : MgrState} (hInv : Inv s) :
    Inv (pmmDeallocate base ptr s) := by
  unfold pmmDeallocate
  by_cases hp0 : ptr = 0
  · rw [if_pos hp0]; exact hInv
  · rw [if_neg hp0]
    cases hh : headerFromPtr base s.blocks ptr with
    | none => exact hInv
    | some blk =>
      obtain ⟨hmemB, husedB, haddrB⟩ := headerFromPtr_some hh
      dsimp only
      rw [if_neg (by simp [husedB])]
      have hba : blockAt s.blocks blk.offset = some blk :=
        blockAt_of_mem hInv.chain_ok hmemB
      obtain ⟨pre, post, hsplit⟩ := splitAtOff_of_blockAt hba
      obtain ⟨hbs, -⟩ := splitAtOff_eq hsplit
      obtain ⟨hmg, hms, hch, hte, hue, hfp, hna, hbc, hfc, hac, hwf⟩ := hInv
      simp only [hsplit]
      rw [hbs] at hch hte hue hfp hna hbc hfc hac
      have hwf' : ∀ b ∈ pre ++ blk :: post, b.used = true →
          isValidAlignment b.alignment = true := fun b hb => hwf b (hbs ▸ hb)
      have hchPre := (chain_append.mp hch).1
      obtain ⟨hoffB, hposB, hchPost⟩ := chain_cons.mp (chain_append.mp hch).2
      have hord := chain_decomp_lt hch
      have hfp' : s.freeList.Perm (freeOffsets pre ++ freeOffsets post) := by
        simpa [freeOffsets_cons, husedB] using hfp
      have hguard : blk.user_size ≤ s.used_size := by
        have h := hue
        simp [usedSum_append, usedSum_cons, husedB] at h
        omega
      rw [if_pos hguard]
      have hnaPre : noAdjFree pre := (List.chain'_append.mp hna).1
      have hnaPost : noAdjFree post :=
        (List.chain'_cons'.mp (List.chain'_append.mp hna).2.1).2
      -- the state after marking the block free, before coalescing
      have invNoMerge :
          (∀ x ∈ pre.getLast?, x.used = true) →
          (∀ y ∈ post.head?, y.used = true) →
          Inv { magic := s.magic, total_size := s.total_size,
                used_size := s.used_size - blk.user_size,
                block_count := s.block_count, free_count := s.free_count + 1,
                alloc_count := s.alloc_count - 1,
                blocks := pre ++
                  ({ blk with used := false, user_size := 0 } : Block) :: post,
                freeList := blk.offset :: s.freeList,
                prev_total_size := s.prev_total_size } := by
        intro hlast hhead
        refine ⟨hmg, hms, ?_, ?_, ?_, ?_, ?_, ?_, ?_, ?_, ?_⟩
        · exact chain_append.mpr ⟨hchPre, chain_cons.mpr ⟨hoffB, hposB, hchPost⟩⟩
        · show s.total_size = hdrEnd + sumTotal _
          have h := hte
          simp [sumTotal_append, sumTotal_cons] at h ⊢
          omega
        · show s.used_size - blk.user_size = hdrEnd + blockHeaderSize + usedSum _
          have h := hue
          simp [usedSum_append, usedSum_cons, husedB] at h ⊢
          omega
        · show (blk.offset :: s.freeList).Perm (freeOffsets _)
          have hg : freeOffsets (pre ++
              ({ blk with used := false, user_size := 0 } : Block) :: post) =
              freeOffsets pre ++ blk.offset :: freeOffsets post := by
            simp [freeOffsets_cons]
          rw [hg]
          exact (hfp'.cons _).trans List.perm_middle.symm
        · exact noAdjFree_build hnaPre hnaPost
            (fun x hx => Or.inl (hlast x hx)) (fun y hy => Or.inr (hhead y hy))
        · show s.block_count = (pre ++ _ :: post).length
          have h := hbc
          simp at h ⊢
          omega
        · show s.free_count + 1 = (List.filter _ (pre ++ _ :: post)).length
          have h := hfc
          simp [List.filter_append, List.filter_cons, husedB] at h ⊢
          omega
        · show s.alloc_count - 1 = (List.filter _ (pre ++ _ :: post)).length
          have h := hac
          simp [List.filter_append, List.filter_cons, husedB] at h ⊢
          omega
        · intro b hb hu
          rcases List.mem_append.mp hb with hb | hb
          · exact hwf' b (List.mem_append_left _ hb) hu
          · rcases List.mem_cons.mp hb with rfl | hb
            · cases hu
            · exact hwf' b (List.mem_append_right _ (List.mem_cons_of_mem _ hb)) hu
      have invFwd : ∀ (nxt : Block) (rest : List Block), post = nxt :: rest →
          nxt.used = false → (∀ x ∈ pre.getLast?, x.used = true) →
          Inv { magic := s.magic, total_size := s.total_size,
                used_size := s.used_size - blk.user_size,
                block_count := s.block_count - 1,
                free_count := s.free_count + 1 - 1,
                alloc_count := s.alloc_count - 1,
                blocks := pre ++
                  (⟨blk.offset, blk.total_size + nxt.total_size, 0,
                    blk.alignment, false⟩ : Block) :: rest,
                freeList := blk.offset ::
                  (((blk.offset :: s.freeList).erase blk.offset).erase nxt.offset),
                prev_total_size := s.prev_total_size } := by
        intro nxt rest hpostEq hnxtF hlast
        subst hpostEq
        obtain ⟨hoffN, hposN, hchRest⟩ := chain_cons.mp hchPost
        have hltBN : blk.offset < nxt.offset := by omega
        have hfpN : s.freeList.Perm
            (freeOffsets pre ++ nxt.offset :: freeOffsets rest) := by
          simpa [freeOffsets_cons, hnxtF] using hfp'
        have hnotinN : nxt.offset ∉ freeOffsets pre := by
          intro hmem
          obtain ⟨x, hx, hxu, hxo⟩ := mem_freeOffsets.mp hmem
          have := hord.1 x hx
          omega
        have heraseN : (s.freeList.erase nxt.offset).Perm
            (freeOffsets pre ++ freeOffsets rest) := perm_erase_middle hfpN hnotinN
        have hnaRest : noAdjFree rest := (List.chain'_cons'.mp hnaPost).2
        refine ⟨hmg, hms, ?_, ?_, ?_, ?_, ?_, ?_, ?_, ?_, ?_⟩
        · refine chain_append.mpr ⟨hchPre, chain_cons.mpr ⟨hoffB, ?_, ?_⟩⟩
          · show 0 < blk.total_size + nxt.total_size
            omega
          · show chain (hdrEnd + sumTotal pre + (blk.total_size + nxt.total_size)) rest
            rw [← Nat.add_assoc]
            exact hchRest
        · show s.total_size = hdrEnd + sumTotal _
          have h := hte
          simp [sumTotal_append, sumTotal_cons] at h ⊢
          omega
        · show s.used_size - blk.user_size = hdrEnd + blockHeaderSize + usedSum _
          have h := hue
          simp [usedSum_append, usedSum_cons, husedB, hnxtF] at h ⊢
          omega
        · show (blk.offset :: ((blk.offset :: s.freeList).erase blk.offset).erase
            nxt.offset).Perm (freeOffsets _)
          rw [List.erase_cons_head]
          have hg : freeOffsets (pre ++
              (⟨blk.offset, blk.total_size + nxt.total_size, 0,
                blk.alignment, false⟩ : Block) :: rest) =
              freeOffsets pre ++ blk.offset :: freeOffsets rest := by
            simp [freeOffsets_cons]
          rw [hg]
          exact (heraseN.cons _).trans List.perm_middle.symm
        · exact noAdjFree_build hnaPre hnaRest
            (fun x hx => Or.inl (hlast x hx))
            (fun y hy => Or.inr (noAdjFree_head_of_cons_free hnaPost hnxtF y hy))
        · show s.block_count - 1 = (pre ++ _ :: rest).length
          have h := hbc
          simp at h ⊢
          omega
        · show s.free_count + 1 - 1 = (List.filter _ (pre ++ _ :: rest)).length
          have h := hfc
          simp [List.filter_append, List.filter_cons, husedB, hnxtF] at h ⊢
          omega
        · show s.alloc_count - 1 = (List.filter _ (pre ++ _ :: rest)).length
          have h := hac
          simp [List.filter_append, List.filter_cons, husedB, hnxtF] at h ⊢
          omega
        · intro b hb hu
          rcases List.mem_append.mp hb with hb | hb
          · exact hwf' b (List.mem_append_left _ hb) hu
          · rcases List.mem_cons.mp hb with rfl | hb
            · cases hu
            · exact hwf' b (List.mem_append_right _
                (List.mem_cons_of_mem _ (List.mem_cons_of_mem _ hb))) hu
      have invBwd : ∀ (pre' : List Block) (prv : Block), pre = pre' ++ [prv] →
          prv.used = false → (∀ y ∈ post.head?, y.used = true) →
          Inv { magic := s.magic, total_size := s.total_size,
                used_size := s.used_size - blk.user_size,
                block_count := s.block_count - 1,
                free_count := s.free_count + 1 - 1,
                alloc_count := s.alloc_count - 1,
                blocks := pre.dropLast ++
                  ({ prv with total_size := prv.total_size + blk.total_size } :
                    Block) :: post,
                freeList := prv.offset ::
                  (((blk.offset :: s.freeList).erase prv.offset).erase blk.offset),
                prev_total_size := s.prev_total_size } := by
        intro pre' prv hpreEq hprvF hhead
        subst hpreEq
        rw [List.dropLast_concat]
        have hchPre' := (chain_append.mp hchPre).1
        obtain ⟨hoffP, hposP, -⟩ := chain_cons.mp (chain_append.mp hchPre).2
        have hltPB : prv.offset < blk.offset := hord.1 prv (by simp)
        have hfl1 : ((blk.offset :: s.freeList).erase prv.offset) =
            blk.offset :: s.freeList.erase prv.offset :=
          List.erase_cons_tail
            (by simp only [beq_iff_eq]; exact Ne.symm (Nat.ne_of_lt hltPB))
        have hfpB : s.freeList.Perm
            (freeOffsets pre' ++ prv.offset :: freeOffsets post) := by
          simpa [freeOffsets_append, freeOffsets_cons, hprvF] using hfp'
        have hnotinP : prv.offset ∉ freeOffsets pre' := by
          intro hmem
          obtain ⟨x, hx, hxu, hxo⟩ := mem_freeOffsets.mp hmem
          have := (@chain_decomp_lt _ _ _ [] hchPre).1 x hx
          omega
        have heraseP : (s.freeList.erase prv.offset).Perm
            (freeOffsets pre' ++ freeOffsets post) := perm_erase_middle hfpB hnotinP
        have hnaPre' : noAdjFree pre' := (List.chain'_append.mp hnaPre).1
        refine ⟨hmg, hms, ?_, ?_, ?_, ?_, ?_, ?_, ?_, ?_, ?_⟩
        · refine chain_append.mpr ⟨hchPre', chain_cons.mpr ⟨?_, ?_, ?_⟩⟩
          · show prv.offset = hdrEnd + sumTotal pre'
            exact hoffP
          · show 0 < prv.total_size + blk.total_size
            omega
          · show chain (hdrEnd + sumTotal pre' +
              (prv.total_size + blk.total_size)) post
            have heq : hdrEnd + sumTotal pre' + (prv.total_size + blk.total_size) =
                hdrEnd + sumTotal (pre' ++ [prv]) + blk.total_size := by
              simp [sumTotal_append, sumTotal_cons]
              omega
            rw [heq]
            exact hchPost
        · show s.total_size = hdrEnd + sumTotal _
          have h := hte
          simp [sumTotal_append, sumTotal_cons] at h ⊢
          omega
        · show s.used_size - blk.user_size = hdrEnd + blockHeaderSize + usedSum _
          have h := hue
          simp [usedSum_append, usedSum_cons, husedB, hprvF] at h ⊢
          omega
        · show (prv.offset ::
            (((blk.offset :: s.freeList).erase prv.offset).erase blk.offset)).Perm
            (freeOffsets _)
          rw [hfl1, List.erase_cons_head]
          have hg : freeOffsets (pre' ++
              ({ prv with total_size := prv.total_size + blk.total_size } :
                Block) :: post) =
              freeOffsets pre' ++ prv.offset :: freeOffsets post := by
            simp [freeOffsets_cons, hprvF]
          rw [hg]
          exact (heraseP.cons _).trans List.perm_middle.symm
        · refine noAdjFree_build hnaPre' hnaPost ?_ (fun y hy => Or.inr (hhead y hy))
          exact fun x hx =>
            Or.inl (noAdjFree_last_of_concat_free hnaPre hprvF x hx)
        · show s.block_count - 1 = (pre' ++ _ :: post).length
          have h := hbc
          simp at h ⊢
          omega
        · show s.free_count + 1 - 1 = (List.filter _ (pre' ++ _ :: post)).length
          have h := hfc
          simp [List.filter_append, List.filter_cons, husedB, hprvF] at h ⊢
          omega
        · show s.alloc_count - 1 = (List.filter _ (pre' ++ _ :: post)).length
          have h := hac
          simp [List.filter_append, List.filter_cons, husedB, hprvF] at h ⊢
          omega
        · intro b hb hu
          rcases List.mem_append.mp hb with hb | hb
          · exact hwf' b (List.mem_append_left _ (List.mem_append_left _ hb)) hu
          · rcases List.mem_cons.mp hb with rfl | hb
            · have hu' : prv.used = true := hu
              rw [hprvF] at hu'; cases hu'
            · exact hwf' b (List.mem_append_right _ (List.mem_cons_of_mem _ hb)) hu
      have invBoth : ∀ (pre' : List Block) (prv nxt : Block) (rest : List Block),
          pre = pre' ++ [prv] → post = nxt :: rest →
          prv.used = false → nxt.used = false →
          Inv { magic := s.magic, total_size := s.total_size,
                used_size := s.used_size - blk.user_size,
                block_count := s.block_count - 1 - 1,
                free_count := s.free_count + 1 - 1 - 1,
                alloc_count := s.alloc_count - 1,
                blocks := pre.dropLast ++
                  ({ prv with total_size :=
                      prv.total_size + (blk.total_size + nxt.total_size) } :
                    Block) :: rest,
                freeList := prv.offset ::
                  (((blk.offset ::
                      (((blk.offset :: s.freeList).erase blk.offset).erase
                        nxt.offset)).erase prv.offset).erase blk.offset),
                prev_total_size := s.prev_total_size } := by
        intro pre' prv nxt rest hpreEq hpostEq hprvF hnxtF
        subst hpreEq
        subst hpostEq
        rw [List.dropLast_concat]
        have hchPre' := (chain_append.mp hchPre).1
        obtain ⟨hoffP, hposP, -⟩ := chain_cons.mp (chain_append.mp hchPre).2
        obtain ⟨hoffN, hposN, hchRest⟩ := chain_cons.mp hchPost
        have hltPB : prv.offset < blk.offset := hord.1 prv (by simp)
        have hltBN : blk.offset < nxt.offset := by omega
        have hnaPre' : noAdjFree pre' := (List.chain'_append.mp hnaPre).1
        have hnaRest : noAdjFree rest := (List.chain'_cons'.mp hnaPost).2
        -- free-list bookkeeping
        rw [List.erase_cons_head,
          List.erase_cons_tail
            (by simp only [beq_iff_eq]; exact Ne.symm (Nat.ne_of_lt hltPB)),
          List.erase_cons_head]
        have hfpRA : s.freeList.Perm
            ((freeOffsets pre' ++ [prv.offset]) ++
              nxt.offset :: freeOffsets rest) := by
          have h := hfp'
          simp [freeOffsets_append, freeOffsets_cons, hprvF, hnxtF] at h
          refine h.trans (List.Perm.of_eq ?_)
          simp
        have hnotinN : nxt.offset ∉ freeOffsets pre' ++ [prv.offset] := by
          intro hmem
          rcases List.mem_append.mp hmem with hmem | hmem
          · obtain ⟨x, hx, hxu, hxo⟩ := mem_freeOffsets.mp hmem
            have h1 := (@chain_decomp_lt _ _ _ [] hchPre).1 x hx
            omega
          · have : nxt.offset = prv.offset := by simpa using hmem
            omega
        have heraseN : (s.freeList.erase nxt.offset).Perm
            (freeOffsets pre' ++ prv.offset :: freeOffsets rest) := by
          have h := perm_erase_middle hfpRA hnotinN
          refine h.trans (List.Perm.of_eq ?_)
          simp
        have hnotinP : prv.offset ∉ freeOffsets pre' := by
          intro hmem
          obtain ⟨x, hx, hxu, hxo⟩ := mem_freeOffsets.mp hmem
          have := (@chain_decomp_lt _ _ _ [] hchPre).1 x hx
          omega
        have heraseP : ((s.freeList.erase nxt.offset).erase prv.offset).Perm
            (freeOffsets pre' ++ freeOffsets rest) :=
          perm_erase_middle heraseN hnotinP
        refine ⟨hmg, hms, ?_, ?_, ?_, ?_, ?_, ?_, ?_, ?_, ?_⟩
        · refine chain_append.mpr ⟨hchPre', chain_cons.mpr ⟨?_, ?_, ?_⟩⟩
          · show prv.offset = hdrEnd + sumTotal pre'
            exact hoffP
          · show 0 < prv.total_size + (blk.total_size + nxt.total_size)
            omega
          · show chain (hdrEnd + sumTotal pre' +
              (prv.total_size + (blk.total_size + nxt.total_size))) rest
            have heq : hdrEnd + sumTotal pre' +
                (prv.total_size + (blk.total_size + nxt.total_size)) =
                hdrEnd + sumTotal (pre' ++ [prv]) + blk.total_size +
                  nxt.total_size := by
              simp [sumTotal_append, sumTotal_cons]
              omega
            rw [heq]
            exact hchRest
        · show s.total_size = hdrEnd + sumTotal _
          have h := hte
          simp [sumTotal_append, sumTotal_cons] at h ⊢
          omega
        · show s.used_size - blk.user_size = hdrEnd + blockHeaderSize + usedSum _
          have h := hue
          simp [usedSum_append, usedSum_cons, husedB, hprvF, hnxtF] at h ⊢
          omega
        · show (prv.offset ::
            ((s.freeList.erase nxt.offset).erase prv.offset)).Perm (freeOffsets _)
          have hg : freeOffsets (pre' ++
              ({ prv with total_size :=
                  prv.total_size + (blk.total_size + nxt.total_size) } :
                Block) :: rest) =
              freeOffsets pre' ++ prv.offset :: freeOffsets rest := by
            simp [freeOffsets_cons, hprvF]
          rw [hg]
          exact (heraseP.cons _).trans List.perm_middle.symm
        · refine noAdjFree_build hnaPre' hnaRest ?_ ?_
          · exact fun x hx =>
              Or.inl (noAdjFree_last_of_concat_free hnaPre hprvF x hx)
          · exact fun y hy =>
              Or.inr (noAdjFree_head_of_cons_free hnaPost hnxtF y hy)
        · show s.block_count - 1 - 1 = (pre' ++ _ :: rest).length
          have h := hbc
          simp at h ⊢
          omega
        · show s.free_count + 1 - 1 - 1 =
            (List.filter _ (pre' ++ _ :: rest)).length
          have h := hfc
          simp [List.filter_append, List.filter_cons, husedB, hprvF, hnxtF] at h ⊢
          omega
        · show s.alloc_count - 1 = (List.filter _ (pre' ++ _ :: rest)).length
          have h := hac
          simp [List.filter_append, List.filter_cons, husedB, hprvF, hnxtF] at h ⊢
          omega
        · intro b hb hu
          rcases List.mem_append.mp hb with hb | hb
          · exact hwf' b (List.mem_append_left _ (List.mem_append_left _ hb)) hu
          · rcases List.mem_cons.mp hb with rfl | hb
            · have hu' : prv.used = true := hu
              rw [hprvF] at hu'; cases hu'
            · exact hwf' b (List.mem_append_right _
                (List.mem_cons_of_mem _ (List.mem_cons_of_mem _ hb))) hu
      simp only [coalesceAt]
      cases post with
      | nil =>
        cases hpl : pre.getLast? with
        | none =>
          exact invNoMerge (fun x hx => by rw [hpl] at hx; cases hx)
            (fun y hy => by cases hy)
        | some prv =>
          dsimp only
          by_cases hpu : prv.used = true
          · rw [if_neg (by simp [hpu])]
            refine invNoMerge (fun x hx => ?_) (fun y hy => by cases hy)
            rw [hpl] at hx
            obtain rfl : prv = x := by simpa using hx
            exact hpu
          · have hpuf : prv.used = false := by simpa using hpu
            rw [if_pos (by simp [hpuf])]
            obtain ⟨pre', hpre⟩ := List.getLast?_eq_some_iff.mp hpl
            exact invBwd pre' prv hpre hpuf (fun y hy => by cases hy)
      | cons nxt rest =>
        dsimp only
        by_cases hnu : nxt.used = true
        · rw [if_neg (by simp [hnu])]
          cases hpl : pre.getLast? with
          | none =>
            refine invNoMerge (fun x hx => by rw [hpl] at hx; cases hx)
              (fun y hy => ?_)
            obtain rfl : nxt = y := by simpa using hy
            exact hnu
          | some prv =>
            dsimp only
            by_cases hpu : prv.used = true
            · rw [if_neg (by simp [hpu])]
              refine invNoMerge (fun x hx => ?_) (fun y hy => ?_)
              · rw [hpl] at hx
                obtain rfl : prv = x := by simpa using hx
                exact hpu
              · obtain rfl : nxt = y := by simpa using hy
                exact hnu
            · have hpuf : prv.used = false := by simpa using hpu
              rw [if_pos (by simp [hpuf])]
              obtain ⟨pre', hpre⟩ := List.getLast?_eq_some_iff.mp hpl
              refine invBwd pre' prv hpre hpuf (fun y hy => ?_)
              obtain rfl : nxt = y := by simpa using hy
              exact hnu
        · have hnuf : nxt.used = false := by simpa using hnu
          rw [if_pos (by simp [hnuf])]
          cases hpl : pre.getLast? with
          | none =>
            exact invFwd nxt rest rfl hnuf
              (fun x hx => by rw [hpl] at hx; cases hx)
          | some prv =>
            dsimp only
            by_cases hpu : prv.used = true
            · rw [if_neg (by simp [hpu])]
              refine invFwd nxt rest rfl hnuf (fun x hx => ?_)
              rw [hpl] at hx
              obtain rfl : prv = x := by simpa using hx
              exact hpu
            · have hpuf : prv.used = false := by simpa using hpu
              rw [if_pos (by simp [hpuf])]
              obtain ⟨pre', hpre⟩ := List.getLast?_eq_some_iff.mp hpl
              exact invBoth pre' prv nxt rest hpre rfl hpuf hnuf

/-! ### `reallocate` preserves the invariant; reachable states -/

theorem reallocate_inv (base : Nat) (growOk : Bool) (ptr new_size : Nat)
    {s : MgrState} (hInv : Inv s) :
    Inv (pmmReallocate base growOk ptr new_size s).2 := by
  unfold pmmReallocate
  by_cases hp0 : ptr = 0
  · rw [if_pos hp0]
    exact (allocateEx_spec base growOk new_size kDefaultAlignment hInv).1
  · rw [if_neg hp0]
    by_cases hn0 : new_size = 0
    · rw [if_pos hn0]
      exact deallocate_inv base ptr hInv
    · rw [if_neg hn0]
      cases hh : headerFromPtr base s.blocks ptr with
      | none => exact hInv
      | some blk =>
        dsimp only
        by_cases hbu : blk.used = true
        · rw [if_neg (by simp [hbu])]
          by_cases hle : new_size ≤ blk.user_size
          · rw [if_pos hle]; exact hInv
          · rw [if_neg hle]
            obtain ⟨hinvA, hnone, hiff, hchar⟩ :=
              allocateEx_spec base growOk new_size blk.alignment hInv
            rcases hr : pmmAllocateEx base growOk new_size blk.alignment s with
              ⟨r1, s1, g⟩
            rw [hr] at hinvA
            cases r1 with
            | none => exact hinvA
            | some newPtr =>
              dsimp only
              cases g
              · rw [if_neg (by simp)]
                exact deallocate_inv base ptr hinvA
              · rw [if_pos rfl]
                exact hinvA
        · rw [if_pos (by simp [hbu])]
          exact hInv

theorem step_inv {s s' : MgrState} (hInv : Inv s) (h : Step s s') : Inv s' := by
  cases h with
  | alloc base growOk u a s => exact (allocateEx_spec base growOk u a hInv).1
  | dealloc base ptr s => exact deallocate_inv base ptr hInv
  | realloc base growOk ptr n s => exact reallocate_inv base growOk ptr n hInv

theorem reachable_inv {s : MgrState} (h : Reachable s) : Inv s := by
  induction h with
  | created size s hc => exact create_inv hc
  | step s s' hr hstep ih => exact step_inv ih hstep

/-! ### The states used as concrete inputs -/

theorem inv_st4096 : Inv st4096 :=
  create_inv (by decide : pmmCreate false 4096 = some st4096)

theorem inv_st4096a : Inv st4096a :=
  (allocateEx_spec 0 true 3913 16 inv_st4096).1

/-! ### The claims -/

/-- Claim C1: the claim fails in the code.  Concrete run: `create` on a
4096-byte buffer yields `st4096`; `allocate(3913, 16)` consumes the single
free block whole and returns pointer 176, giving the full heap `st4096a`;
`reallocate(176, 3920)` finds no fit, grows the buffer (total size becomes
8184 ≠ 4096, so the singleton was re-installed over a fresh buffer), and
returns the fresh pointer 4176 ≠ 176 — yet in the installed manager the
old block at offset 96 is still marked `used` with its old `user_size`
3913, and `alloc_count` is 2 with an empty free list: the old allocation
was never freed.  The trailing `deallocate(ptr)` of `reallocate` runs on
the stale pre-growth buffer (`this` is not updated after `expand`
re-installs `s_instance`), so the new manager keeps both blocks live,
violating the claimed invariant. -/
theorem realloc_growth_leaves_old_block_live :
    pmmCreate false 4096 = some st4096 ∧
    (pmmAllocateEx 0 true 3913 16 st4096).1 = some 176 ∧
    headerFromPtr 0 st4096a.blocks 176 = some ⟨96, 4000, 3913, 16, true⟩ ∧
    3913 < 3920 ∧
    (pmmReallocate 0 true 176 3920 st4096a).1 = some 4176 ∧
    (pmmReallocate 0 true 176 3920 st4096a).2.total_size = 8184 ∧
    blockAt (pmmReallocate 0 true 176 3920 st4096a).2.blocks 96 =
      some ⟨96, 4000, 3913, 16, true⟩ ∧
    (pmmReallocate 0 true 176 3920 st4096a).2.alloc_count = 2 ∧
    (pmmReallocate 0 true 176 3920 st4096a).2.freeList = [] := by
  decide

/-- Claim C2 counterexample: immediately after `create(4096)` the header
records `used_size = 168`, but the manager-header prefix (96 bytes, there
being no live block) accounts for only 96: the claimed equation is off by
one block-header size (72) in every reachable state. -/
theorem used_size_claim_false :
    pmmCreate false 4096 = some st4096 ∧
    st4096.used_size ≠ hdrEnd + usedSum st4096.blocks := by
  decide

/-- Claim C2 (amended): in every state reachable from `create` by
`allocate`, `deallocate` and `reallocate`, `used_size` equals the aligned
manager-header prefix plus ONE block-header size plus the sum of
`user_size` over the blocks whose `used` flag is true — the code
initialises the counter to `hdrEnd + sizeof(BlockHeader)` and thereafter
adds and subtracts bare `user_size` values only, so exactly one stray
block header stays in the count regardless of the number of blocks. -/
theorem used_size_accounting {s : MgrState} (h : Reachable s) :
    s.used_size = hdrEnd + blockHeaderSize + usedSum s.blocks :=
  (reachable_inv h).used_eq

/-- Claim C2 witness: the amended accounting at the state `create(4096)`
produces. -/
theorem used_size_accounting_witness :
    st4096.used_size = hdrEnd + blockHeaderSize + usedSum st4096.blocks :=
  used_size_accounting (Reachable.created 4096 st4096 (by decide))

/-- Claim C3 counterexample: from the full heap `st4096a`
(`total_size = 4096`), the request `(937, 16)` has required block size
1024 and no fitting free block, so `allocate` grows.  The claimed size is
`max(4096 × 5/4, 4096 + 1024 + 80) = 5200`, but `expand` produces a
5120-byte buffer: the code takes `old + needed + header_overhead` ONLY
when `old × 5/4` is strictly smaller than `old + needed` (the comparison
omits the header overhead), otherwise it takes `old × 5/4` even when that
is smaller than `old + needed + header_overhead`. -/
theorem expand_size_claim_false :
    findFit st4096a (requiredBlockSize 937 16) = none ∧
    (pmmAllocateEx 0 true 937 16 st4096a).2.2 = true ∧
    pmmExpand true 937 16 st4096a = some stGrown937 ∧
    stGrown937.total_size = 5120 ∧
    specGrownSize st4096a.total_size (requiredBlockSize 937 16) = 5200 ∧
    stGrown937.total_size ≠
      specGrownSize st4096a.total_size (requiredBlockSize 937 16) := by
  decide

/-- Claim C3 (amended): on every successful growth the new `total_size`
is `old + needed + header_overhead` when `old × 5/4 < old + needed`, and
`old × 5/4` otherwise; in particular the second spec bullet
`total_size ≥ old × 5/4` does hold. -/
theorem expand_total_size {growOk : Bool} {u a : Nat} {s s' : MgrState}
    (hInv : Inv s) (h : pmmExpand growOk u a s = some s') :
    s'.total_size =
      (if s.total_size * kGrowNumerator / kGrowDenominator <
          s.total_size + requiredBlockSize u a then
        s.total_size + requiredBlockSize u a +
          alignUp blockHeaderSize kDefaultAlignment
      else s.total_size * kGrowNumerator / kGrowDenominator) ∧
    s.total_size * kGrowNumerator / kGrowDenominator ≤ s'.total_size :=
  ⟨(expand_spec hInv h).2.1, (expand_spec hInv h).2.2.1⟩

/-- Claim C3 witness: the amended size law at the concrete growth of the
counterexample. -/
theorem expand_total_size_witness :
    stGrown937.total_size =
      (if st4096a.total_size * kGrowNumerator / kGrowDenominator <
          st4096a.total_size + requiredBlockSize 937 16 then
        st4096a.total_size + requiredBlockSize 937 16 +
          alignUp blockHeaderSize kDefaultAlignment
      else st4096a.total_size * kGrowNumerator / kGrowDenominator) ∧
    st4096a.total_size * kGrowNumerator / kGrowDenominator ≤
      stGrown937.total_size :=
  expand_total_size inv_st4096a
    (by decide : pmmExpand true 937 16 st4096a = some stGrown937)

/-- Claim C4 counterexample: the 128-byte image `st128` satisfies every
§3 invariant, yet the round trip fails: `load` rejects any buffer smaller
than `kMinMemorySize = 4096` even though `create` could never have
produced it and the image itself is coherent — the claim as stated
quantifies over all invariant-satisfying states and is therefore too
broad. -/
theorem save_load_claim_false :
    SpecInv st128 ∧
    pmmLoad false st128.total_size (pmmSave st128) = none := by
  decide

/-- Claim C4 (amended): for every §3-invariant state whose `total_size`
is at least `kMinMemorySize` (all states `create` can give rise to),
saving the `total_size` bytes and loading them into a buffer of the
recorded size reproduces the exact snapshot: every block keeps its
offset, `used` flag, `user_size` and `alignment` (the `blocks` field is
carried over unchanged), the growth history is cleared and the free list
is rebuilt from the persisted `used` bits.  `destroy` in between only
zeroes the live buffer's magic; the saved image is a byte copy and is
unaffected. -/
theorem save_load_roundtrip {s : MgrState} (hinv : SpecInv s)
    (hsz : kMinMemorySize ≤ s.total_size) :
    pmmLoad false s.total_size (pmmSave s) =
      some { s with prev_total_size := 0,
                    freeList := rebuildFreeList s.blocks } := by
  have hmagic : s.magic = kMagic := hinv.1
  have hsz' : 4096 ≤ s.total_size := by simpa using hsz
  unfold pmmLoad pmmSave
  rw [if_neg (by simp only [Bool.false_or, decide_eq_true_eq,
    kMinMemorySize_val]; omega)]
  rw [if_neg (by simp [hmagic])]

/-- Claim C4 witness: the round trip at the state `create(4096)`
produces. -/
theorem save_load_roundtrip_witness :
    pmmLoad false st4096.total_size (pmmSave st4096) =
      some { st4096 with prev_total_size := 0,
                         freeList := rebuildFreeList st4096.blocks } :=
  save_load_roundtrip (by decide) (by decide)

/-- Claim C5: in every state reachable by the public operations from
`create` no two spatially adjacent blocks are both free, and in
particular the property still holds after any further `deallocate`
returns. -/
theorem no_adjacent_free_blocks {s : MgrState} (h : Reachable s) :
    noAdjFree s.blocks ∧
    ∀ base ptr, noAdjFree (pmmDeallocate base ptr s).blocks :=
  ⟨(reachable_inv h).no_adj,
    fun base ptr => (deallocate_inv base ptr (reachable_inv h)).no_adj⟩

/-- Claim C5 witness: the coalesce discipline at the state `create(4096)`
produces. -/
theorem no_adjacent_free_blocks_witness :
    noAdjFree st4096.blocks ∧
    ∀ base ptr, noAdjFree (pmmDeallocate base ptr st4096).blocks :=
  no_adjacent_free_blocks (Reachable.created 4096 st4096 (by decide))

/-- Claim C6: a successful `allocate(u, a)` with `u > 0` and a valid
alignment, from an invariant state, returns the user address of a block
of the resulting heap that is marked used with exactly the requested
`user_size` and `alignment`; the address is a multiple of `a`, lies at or
beyond the block's offset plus the block-header size, and the `u` user
bytes end at or before the block's end. -/
theorem allocate_result_in_block (base : Nat) (growOk : Bool) (u a : Nat)
    {s : MgrState} (hInv : Inv s) (hu : 0 < u)
    (hva : isValidAlignment a = true) {p : Nat}
    (hp : (pmmAllocateEx base growOk u a s).1 = some p) :
    ∃ b ∈ (pmmAllocateEx base growOk u a s).2.1.blocks,
      b.used = true ∧ b.user_size = u ∧ b.alignment = a ∧
      p = userAddr base b ∧ a ∣ p ∧
      base + b.offset + blockHeaderSize ≤ p ∧
      p + u ≤ base + b.offset + b.total_size := by
  obtain ⟨b, hmem, hused, husz, halign, hpe, hfit⟩ :=
    (allocateEx_spec base growOk u a hInv).2.2.2 p hp
  have hapos : 0 < a := isValidAlignment_pos hva
  have hdvd : a ∣ p := by
    rw [hpe]; unfold userAddr; rw [halign]; exact dvd_alignUp _ _
  have hlow : base + b.offset + blockHeaderSize ≤ p := by
    rw [hpe]; unfold userAddr; rw [halign]
    exact le_alignUp _ _ hapos
  have hupper : p ≤ base + b.offset + blockHeaderSize + (a - 1) := by
    rw [hpe]; unfold userAddr; rw [halign]
    exact alignUp_le _ _ hapos
  have hreq := requiredBlockSize_ge u a
  exact ⟨b, hmem, hused, husz, halign, hpe, hdvd, hlow, by omega⟩

/-- Claim C6 witness: `allocate(3913, 16)` from the state `create(4096)`
produces returns 176 and the block containment bounds hold there. -/
theorem allocate_result_in_block_witness :
    ∃ b ∈ (pmmAllocateEx 0 true 3913 16 st4096).2.1.blocks,
      b.used = true ∧ b.user_size = 3913 ∧ b.alignment = 16 ∧
      176 = userAddr 0 b ∧ 16 ∣ 176 ∧
      0 + b.offset + blockHeaderSize ≤ 176 ∧
      176 + 3913 ≤ 0 + b.offset + b.total_size :=
  allocate_result_in_block 0 true 3913 16 inv_st4096 (by decide) (by decide)
    (by decide)

/-- Claim C7: for a live pointer whose block holds `user_size < n` bytes,
`reallocate(ptr, n)` returns null exactly when the internal fallback
`allocate(n, blk.alignment)` returns null, which in turn happens exactly
when no free block fits the required size AND growth is unavailable; and
whenever it returns null the whole manager state — every block header and
every counter — is exactly as before the call. -/
theorem reallocate_failure (base : Nat) (growOk : Bool) (ptr n : Nat)
    {s : MgrState} {blk : Block} (hInv : Inv s)
    (hptr : ptr ≠ 0)
    (hblk : headerFromPtr base s.blocks ptr = some blk)
    (hn : blk.user_size < n) :
    ((pmmReallocate base growOk ptr n s).1 = none ↔
      (pmmAllocateEx base growOk n blk.alignment s).1 = none) ∧
    ((pmmAllocateEx base growOk n blk.alignment s).1 = none →
      findFit s (requiredBlockSize n blk.alignment) = none ∧
        growOk = false) ∧
    ((pmmReallocate base growOk ptr n s).1 = none →
      (pmmReallocate base growOk ptr n s).2 = s) := by
  obtain ⟨hmemB, husedB, -⟩ := headerFromPtr_some hblk
  have hva : isValidAlignment blk.alignment = true :=
    hInv.used_wf blk hmemB husedB
  have hn0 : n ≠ 0 := by omega
  obtain ⟨hinvA, hnone, hiff, hchar⟩ :=
    allocateEx_spec base growOk n blk.alignment hInv
  have hiff' := hiff (by omega) hva
  unfold pmmReallocate
  rw [if_neg hptr, if_neg hn0, hblk]
  dsimp only
  rw [if_neg (by simp [husedB]), if_neg (by omega : ¬ n ≤ blk.user_size)]
  rcases hr : pmmAllocateEx base growOk n blk.alignment s with ⟨r1, s1, g⟩
  rw [hr] at hnone hiff'
  cases r1 with
  | none =>
    dsimp only
    exact ⟨by simp, fun _ => hiff'.mp rfl, fun _ => hnone rfl⟩
  | some newPtr =>
    dsimp only
    cases g
    · rw [if_neg (by simp)]
      exact ⟨by simp, fun h => by simp at h, fun h => by simp at h⟩
    · rw [if_pos rfl]
      exact ⟨by simp, fun h => by simp at h, fun h => by simp at h⟩

/-- Claim C7 witness: growing reallocation of the live pointer 176 on the
full heap `st4096a` with growth unavailable. -/
theorem reallocate_failure_witness :
    ((pmmReallocate 0 false 176 3920 st4096a).1 = none ↔
      (pmmAllocateEx 0 false 3920 16 st4096a).1 = none) ∧
    ((pmmAllocateEx 0 false 3920 16 st4096a).1 = none →
      findFit st4096a (requiredBlockSize 3920 16) = none ∧
        false = false) ∧
    ((pmmReallocate 0 false 176 3920 st4096a).1 = none →
      (pmmReallocate 0 false 176 3920 st4096a).2 = st4096a) :=
  reallocate_failure 0 false 176 3920 inv_st4096a (by decide)
    (by decide :
      headerFromPtr 0 st4096a.blocks 176 = some ⟨96, 4000, 3913, 16, true⟩)
    (by decide : (3913 : Nat) < 3920)

/-- Claim C8: `deallocate` of a null pointer, or of a pointer for which
the backward header-recovery scan finds no candidate that is used with
matching computed user address, leaves the manager state — header fields
and all blocks — entirely unchanged. -/
theorem deallocate_invalid_noop (base ptr : Nat) (s : MgrState)
    (h : ptr = 0 ∨ headerFromPtr base s.blocks ptr = none) :
    pmmDeallocate base ptr s = s := by
  unfold pmmDeallocate
  rcases h with h | h
  · rw [if_pos h]
  · by_cases hp0 : ptr = 0
    · rw [if_pos hp0]
    · rw [if_neg hp0, h]

/-- Claim C8 witness: deallocating the null pointer on the state
`create(4096)` produces. -/
theorem deallocate_invalid_noop_witness :
    pmmDeallocate 0 0 st4096 = st4096 :=
  deallocate_invalid_noop 0 0 st4096 (Or.inl rfl)

/-- Claim C9: `create(memory, size)` fails exactly when `memory` is null
or `size < kMinMemorySize`; under the complementary precondition the
internal check that the aligned manager header plus one block header plus
one minimum block fit (96 + 72 + 32 = 200 ≤ 4096 ≤ size) can never fail,
so a manager is always produced. -/
theorem create_none_iff (memoryNull : Bool) (size : Nat) :
    pmmCreate memoryNull size = none ↔
      memoryNull = true ∨ size < kMinMemorySize := by
  unfold pmmCreate
  by_cases hc : memoryNull = true ∨ size < kMinMemorySize
  · have hb : (memoryNull || decide (size < kMinMemorySize)) = true := by
      simp only [Bool.or_eq_true, decide_eq_true_eq]
      exact hc
    rw [if_pos hb]
    exact ⟨fun _ => hc, fun _ => rfl⟩
  · have hb : ¬ (memoryNull || decide (size < kMinMemorySize)) = true := by
      simp only [Bool.or_eq_true, decide_eq_true_eq]
      exact hc
    rw [if_neg hb]
    rw [not_or] at hc
    obtain ⟨hm, hs⟩ := hc
    have hs' : 4096 ≤ size := by
      simp only [kMinMemorySize_val] at hs
      omega
    rw [if_neg (show ¬ size < hdrEnd + blockHeaderSize + kMinBlockSize by
      simp only [hdrEnd_val, blockHeaderSize_val, kMinBlockSize_val]
      omega)]
    constructor
    · intro h
      exact absurd h (by simp)
    · intro h
      rcases h with h | h
      · exact absurd h hm
      · exact absurd h hs

/-- Claim C10 counterexample: `validate` takes no shared (reader) lock —
the source contains no readers-writer lock at all, and `validate` runs
with no synchronisation whatsoever. -/
theorem validate_lock_not_shared :
    ¬ lockOf PublicOp.validate = LockKind.sharedLock := by
  decide

/-- Claim C10 (amended): the write operations `allocate`, `deallocate`,
`reallocate` and the lifecycle operations `create`, `load`, `destroy`
each acquire the one static exclusive `std::recursive_mutex`; the read
operations `validate`, `save`, `get_stats` and `get_info` acquire no lock
at all; no operation acquires a shared lock.  Writers are thus mutually
exclusive, but readers run unsynchronised against concurrent writers
instead of under a shared lock. -/
theorem lock_discipline :
    (∀ op, isWriteOp op = true → lockOf op = LockKind.exclusiveRecursive) ∧
    (∀ op, isReadOp op = true → lockOf op = LockKind.noLock) ∧
    lockOf PublicOp.create = LockKind.exclusiveRecursive ∧
    lockOf PublicOp.load = LockKind.exclusiveRecursive ∧
    lockOf PublicOp.destroy = LockKind.exclusiveRecursive ∧
    (∀ op, lockOf op ≠ LockKind.sharedLock) := by
  refine ⟨?_, ?_, rfl, rfl, rfl, ?_⟩ <;> intro op <;> cases op <;> decide

/-- Claim C10 witness: the discipline at the two poles `allocate` and
`validate`. -/
theorem lock_discipline_witness :
    lockOf PublicOp.allocate = LockKind.exclusiveRecursive ∧
    lockOf PublicOp.validate = LockKind.noLock :=
  ⟨lock_discipline.1 PublicOp.allocate rfl,
    lock_discipline.2.1 PublicOp.validate rfl⟩

end PMM
